import Mathlib

/-!
Shallow embedding of the pfp-native-host KDBX 4 codec (crates keepass_db and
native_host).  Byte streams are `List Nat` with each byte below 256; machine
integers are `Nat`/`Int` with explicit reductions modulo powers of two;
fallible code returns `Except Error`.  External crates (sha2, hmac, argon2,
the ciphers, gzip, the url parser and the OS random source) are modelled as
abstract function parameters; everything written in the repository itself is
translated from its source.
-/

deriving instance DecidableEq for Except

namespace KeepassDb

/-- The error enum of src/error.rs (payload-free where the payload is a
foreign type; only the variants reachable from the embedded code). -/
inductive Error where
  | IoError
  | Encoding
  | XMLParsing
  | XMLSerialization
  | KeyDerivation
  | CorruptDatabase
  | UnsupportedVersion (major minor : Nat)
  | UnsupportedHeaderFieldType (t : Nat)
  | InvalidFieldSize
  | UnsupportedBlockCipher
  | UnsupportedStreamCipher (n : Nat)
  | UnsupportedCompression (n : Nat)
  | UnsupportedVariantListVersion (n : Nat)
  | UnsupportedVariantType (n : Nat)
  | KdfFieldMissingOrInvalid (key : String)
  | AesKDFUnsupported
  | UnsupportedKDF
  | KDFParameterExceedsRange
  | HeaderFieldsMissing
  | HeaderChecksumMismatch
  | InvalidCredentials
  | EncryptionError
  | DecryptionError
  | RandomNumberGeneratorFailed
  | UnsupportedBinaryFlags (flags : Nat)
  | MissingRootGroup
  | NoSuchEntry
deriving DecidableEq, Repr

/-- Little-endian byte encoding of width `w` (io.rs: to_le_bytes). -/
def leBytes : Nat → Nat → List Nat
  | 0, _ => []
  | w + 1, n => n % 256 :: leBytes w (n / 256)

/-- Little-endian byte decoding (io.rs: from_le_bytes). -/
def fromLE : List Nat → Nat
  | [] => 0
  | b :: rest => b + 256 * fromLE rest

def u16le (n : Nat) : List Nat := leBytes 2 n
def u32le (n : Nat) : List Nat := leBytes 4 n
def u64le (n : Nat) : List Nat := leBytes 8 n

/-- Two's-complement little-endian encoding of an i64 (i64::to_le_bytes). -/
def i64le (i : Int) : List Nat := leBytes 8 (i % (2 ^ 64 : Int)).toNat

/-- io.rs Vec::deserialize with explicit size: read_exact of `n` bytes. -/
def readBytesE (n : Nat) (input : List Nat) : Except Error (List Nat × List Nat) :=
  if n ≤ input.length then .ok (input.take n, input.drop n) else .error .IoError

/-- io.rs u8::deserialize. -/
def parseU8 (input : List Nat) : Except Error (Nat × List Nat) :=
  match input with
  | [] => .error .IoError
  | b :: rest => .ok (b, rest)

/-- io.rs u16::deserialize. -/
def parseU16 (input : List Nat) : Except Error (Nat × List Nat) :=
  match readBytesE 2 input with
  | .error e => .error e
  | .ok (bs, rest) => .ok (fromLE bs, rest)

/-- io.rs u32::deserialize. -/
def parseU32 (input : List Nat) : Except Error (Nat × List Nat) :=
  match readBytesE 4 input with
  | .error e => .error e
  | .ok (bs, rest) => .ok (fromLE bs, rest)

/-- io.rs u64::deserialize. -/
def parseU64 (input : List Nat) : Except Error (Nat × List Nat) :=
  match readBytesE 8 input with
  | .error e => .error e
  | .ok (bs, rest) => .ok (fromLE bs, rest)

/-- All entries of a byte list are actual bytes. -/
def IsBytes (l : List Nat) : Prop := ∀ b ∈ l, b < 256

instance : DecidablePred IsBytes := fun l => by
  unfold IsBytes; infer_instance

/-! ## Database version (src/keepass_db/src/database_version.rs) -/

def SIGNATURE1 : Nat := 0x9AA2D903
def SIGNATURE2 : Nat := 0xB54BFB67

structure DatabaseVersion where
  major : Nat
  minor : Nat
deriving DecidableEq, Repr

/-- impl Serialize for DatabaseVersion. -/
def DatabaseVersion.serializeBytes (v : DatabaseVersion) : List Nat :=
  u32le SIGNATURE1 ++ u32le SIGNATURE2 ++ u16le v.minor ++ u16le v.major

/-- impl Deserialize for DatabaseVersion. -/
def DatabaseVersion.deserialize (input : List Nat) :
    Except Error (DatabaseVersion × List Nat) :=
  match parseU32 input with
  | .error e => .error e
  | .ok (signature1, r1) =>
    match parseU32 r1 with
    | .error e => .error e
    | .ok (signature2, r2) =>
      if signature1 ≠ SIGNATURE1 ∨ signature2 ≠ SIGNATURE2 then .error .CorruptDatabase
      else
        match parseU16 r2 with
        | .error e => .error e
        | .ok (minor, r3) =>
          match parseU16 r3 with
          | .error e => .error e
          | .ok (major, r4) =>
            if major ≠ 4 then .error (.UnsupportedVersion major minor)
            else .ok (⟨major, minor⟩, r4)

/-! ## UTF-8 validation (behavior of String::from_utf8 in io.rs, strict RFC 3629) -/

def isValidUtf8 : List Nat → Bool
  | [] => true
  | b :: rest =>
    if b < 0x80 then isValidUtf8 rest
    else if b < 0xC2 then false
    else if b < 0xE0 then
      match rest with
      | b1 :: rest1 => decide (0x80 ≤ b1 ∧ b1 ≤ 0xBF) && isValidUtf8 rest1
      | [] => false
    else if b < 0xF0 then
      match rest with
      | b1 :: b2 :: rest2 =>
        decide ((if b = 0xE0 then 0xA0 else 0x80) ≤ b1 ∧
                b1 ≤ (if b = 0xED then 0x9F else 0xBF) ∧
                0x80 ≤ b2 ∧ b2 ≤ 0xBF) && isValidUtf8 rest2
      | _ => false
    else if b ≤ 0xF4 then
      match rest with
      | b1 :: b2 :: b3 :: rest3 =>
        decide ((if b = 0xF0 then 0x90 else 0x80) ≤ b1 ∧
                b1 ≤ (if b = 0xF4 then 0x8F else 0xBF) ∧
                0x80 ≤ b2 ∧ b2 ≤ 0xBF ∧ 0x80 ≤ b3 ∧ b3 ≤ 0xBF) && isValidUtf8 rest3
      | _ => false
    else false

/-! ## Typed-variant dictionary (src/keepass_db/src/variant_field.rs, variant_list.rs)

Keys and string values are represented by their UTF-8 byte lists; the
`String::from_utf8` step of the Rust code is the `isValidUtf8` check. -/

/-- Two's-complement LE encoding of an i32 (i32::to_le_bytes). -/
def i32leInt (v : Int) : List Nat := leBytes 4 (v % (2 ^ 32 : Int)).toNat

/-- Two's-complement LE encoding of an i64 (i64::to_le_bytes). -/
def i64leInt (v : Int) : List Nat := i64le v

/-- Reinterpret a Nat below 2^32 as a signed i32 value. -/
def intOfLe32 (n : Nat) : Int := if n < 2 ^ 31 then (n : Int) else (n : Int) - 2 ^ 32

/-- Reinterpret a Nat below 2^64 as a signed i64 value. -/
def intOfLe64 (n : Nat) : Int := if n < 2 ^ 63 then (n : Int) else (n : Int) - 2 ^ 64

inductive VariantValue where
  | EndOfList
  | U32 (v : Nat)
  | U64 (v : Nat)
  | Bool (b : Bool)
  | I32 (v : Int)
  | I64 (v : Int)
  | String (s : List Nat)
  | Bytes (b : List Nat)
deriving DecidableEq, Repr

/-- VariantValue::len. -/
def VariantValue.lenBytes : VariantValue → Nat
  | .EndOfList => 0
  | .U32 _ => 4
  | .U64 _ => 8
  | .Bool _ => 1
  | .I32 _ => 4
  | .I64 _ => 8
  | .String s => s.length
  | .Bytes b => b.length

/-- The wire tag of a value (VariantType). -/
def VariantValue.typeCode : VariantValue → Nat
  | .EndOfList => 0x00
  | .U32 _ => 0x04
  | .U64 _ => 0x05
  | .Bool _ => 0x08
  | .I32 _ => 0x0C
  | .I64 _ => 0x0D
  | .String _ => 0x18
  | .Bytes _ => 0x42

structure VariantField where
  key : List Nat
  value : VariantValue
deriving DecidableEq, Repr

/-- VariantField::len. -/
def VariantField.lenBytes (f : VariantField) : Nat :=
  match f.value with
  | .EndOfList => 1
  | v => 1 + 8 + f.key.length + v.lenBytes

/-- impl Serialize for VariantField. -/
def VariantField.serializeBytes (f : VariantField) : List Nat :=
  match f.value with
  | .EndOfList => [0x00]
  | v =>
    v.typeCode :: (u32le f.key.length ++ f.key ++
      match v with
      | .EndOfList => []
      | .U32 n => u32le 4 ++ u32le n
      | .U64 n => u32le 8 ++ u64le n
      | .Bool b => u32le 1 ++ [if b then 0x01 else 0x00]
      | .I32 n => u32le 4 ++ i32leInt n
      | .I64 n => u32le 8 ++ i64leInt n
      | .String s => u32le s.length ++ s
      | .Bytes bs => u32le bs.length ++ bs)

/-- The typed payload step of VariantField deserialization (the big match). -/
def parseVariantPayload (t : Nat) (key : List Nat) (size : Nat) (input : List Nat) :
    Except Error (VariantField × List Nat) :=
  if t = 0x04 then
    if size ≠ 4 then .error .InvalidFieldSize
    else match parseU32 input with
      | .error e => .error e
      | .ok (n, rest) => .ok (⟨key, .U32 n⟩, rest)
  else if t = 0x05 then
    if size ≠ 8 then .error .InvalidFieldSize
    else match parseU64 input with
      | .error e => .error e
      | .ok (n, rest) => .ok (⟨key, .U64 n⟩, rest)
  else if t = 0x08 then
    if size ≠ 1 then .error .InvalidFieldSize
    else match parseU8 input with
      | .error e => .error e
      | .ok (n, rest) => .ok (⟨key, .Bool (n ≠ 0)⟩, rest)
  else if t = 0x0C then
    if size ≠ 4 then .error .InvalidFieldSize
    else match parseU32 input with
      | .error e => .error e
      | .ok (n, rest) => .ok (⟨key, .I32 (intOfLe32 n)⟩, rest)
  else if t = 0x0D then
    if size ≠ 8 then .error .InvalidFieldSize
    else match parseU64 input with
      | .error e => .error e
      | .ok (n, rest) => .ok (⟨key, .I64 (intOfLe64 n)⟩, rest)
  else if t = 0x18 then
    match readBytesE size input with
    | .error e => .error e
    | .ok (s, rest) =>
      if isValidUtf8 s then .ok (⟨key, .String s⟩, rest) else .error .Encoding
  else if t = 0x42 then
    match readBytesE size input with
    | .error e => .error e
    | .ok (bs, rest) => .ok (⟨key, .Bytes bs⟩, rest)
  else .error (.UnsupportedVariantType t)

/-- impl Deserialize for VariantField. -/
def parseVariantField (input : List Nat) : Except Error (VariantField × List Nat) :=
  match parseU8 input with
  | .error e => .error e
  | .ok (t, r0) =>
    if t = 0x00 then .ok (⟨[], .EndOfList⟩, r0)
    else if t = 0x04 ∨ t = 0x05 ∨ t = 0x08 ∨ t = 0x0C ∨ t = 0x0D ∨ t = 0x18 ∨ t = 0x42 then
      match parseU32 r0 with
      | .error e => .error e
      | .ok (keySize, r1) =>
        match readBytesE keySize r1 with
        | .error e => .error e
        | .ok (key, r2) =>
          if isValidUtf8 key then
            match parseU32 r2 with
            | .error e => .error e
            | .ok (size, r3) => parseVariantPayload t key size r3
          else .error .Encoding
    else .error (.UnsupportedVariantType t)

/-- VariantList::len (total serialized byte length). -/
def variantListLen (l : List VariantField) : Nat :=
  2 + (l.map VariantField.lenBytes).sum + 1

/-- impl Serialize for VariantList (version, fields, end-of-list marker). -/
def serializeVariantList (l : List VariantField) : List Nat :=
  u16le 0x0100 ++ (l.map VariantField.serializeBytes).flatten ++ [0x00]

/-- The field-reading loop of VariantList deserialization.  The fuel only
bounds the number of iterations; every iteration consumes at least one input
byte, so fuel `input.length + 1` is never exhausted. -/
def parseVariantFields : Nat → List Nat → Except Error (List VariantField × List Nat)
  | 0, _ => .error .IoError
  | fuel + 1, input =>
    match parseVariantField input with
    | .error e => .error e
    | .ok (f, rest) =>
      match f.value with
      | .EndOfList => .ok ([], rest)
      | _ =>
        match parseVariantFields fuel rest with
        | .error e => .error e
        | .ok (fs, rest2) => .ok (f :: fs, rest2)

/-- impl Deserialize for VariantList. -/
def deserializeVariantList (input : List Nat) :
    Except Error (List VariantField × List Nat) :=
  match parseU16 input with
  | .error e => .error e
  | .ok (version, r1) =>
    if Nat.land version 0xFF00 > 0x0100 then .error (.UnsupportedVariantListVersion version)
    else parseVariantFields (r1.length + 1) r1

/-- VariantList::get (linear lookup by key equality, first match). -/
def variantListGet (l : List VariantField) (key : List Nat) : Option VariantValue :=
  match l.find? (fun f => f.key == key) with
  | some f => some f.value
  | none => none

/-! ## KDF parameters (src/keepass_db/src/kdf_parameters.rs) -/

inductive Argon2Variant where
  | D
  | I
  | ID
deriving DecidableEq, Repr

inductive Argon2Version where
  | Version10
  | Version13
deriving DecidableEq, Repr

/-- argon2::Version::to_int. -/
def Argon2Version.toInt : Argon2Version → Nat
  | .Version10 => 0x10
  | .Version13 => 0x13

/-- argon2::Version::from_int. -/
def Argon2Version.fromInt (n : Nat) : Option Argon2Version :=
  if n = 0x10 then some .Version10 else if n = 0x13 then some .Version13 else none

structure KdfParameters where
  algorithm : Argon2Variant
  salt : List Nat
  version : Argon2Version
  parallelism : Nat
  memory : Nat
  iterations : Nat
deriving DecidableEq, Repr

def UUID_ARGON2D : List Nat :=
  [0xef, 0x63, 0x6d, 0xdf, 0x8c, 0x29, 0x44, 0x4b, 0x91, 0xf7, 0xa9, 0xa4, 0x03, 0xe3, 0x0a, 0x0c]

def UUID_ARGON2ID : List Nat :=
  [0x9e, 0x29, 0x8b, 0x19, 0x56, 0xdb, 0x47, 0x73, 0xb2, 0x3d, 0xfc, 0x3e, 0xc6, 0xf0, 0xa1, 0xe6]

def UUID_AESKDF : List Nat :=
  [0x7c, 0x02, 0xbb, 0x82, 0x79, 0xa7, 0x4a, 0xc0, 0x92, 0x7d, 0x11, 0x4a, 0x00, 0x64, 0x82, 0x38]

/-- UTF-8 bytes of the key "$UUID". -/
def keyUUID : List Nat := [0x24, 0x55, 0x55, 0x49, 0x44]

/-- UTF-8 bytes of the key "S". -/
def keyS : List Nat := [0x53]

/-- UTF-8 bytes of the key "V". -/
def keyV : List Nat := [0x56]

/-- UTF-8 bytes of the key "P". -/
def keyP : List Nat := [0x50]

/-- UTF-8 bytes of the key "M". -/
def keyM : List Nat := [0x4D]

/-- UTF-8 bytes of the key "I". -/
def keyI : List Nat := [0x49]

/-- The field list built by From<&KdfParameters> for VariantList, given the
algorithm UUID. -/
def kdfFields (uuid : List Nat) (k : KdfParameters) : List VariantField :=
  [⟨keyUUID, .Bytes uuid⟩,
   ⟨keyS, .Bytes k.salt⟩,
   ⟨keyV, .U32 k.version.toInt⟩,
   ⟨keyP, .U32 k.parallelism⟩,
   ⟨keyM, .U64 (k.memory * 1024)⟩,
   ⟨keyI, .U64 k.iterations⟩]

/-- From<&KdfParameters> for VariantList.  The Rust code panics on the
Argon2i variant ("Unexpected KDF algorithm configured"); the panic is
modelled as `none`. -/
def KdfParameters.toVariantList (k : KdfParameters) : Option (List VariantField) :=
  match k.algorithm with
  | .D => some (kdfFields UUID_ARGON2D k)
  | .ID => some (kdfFields UUID_ARGON2ID k)
  | .I => none

/-- TryFrom<VariantList> for KdfParameters. -/
def KdfParameters.ofVariantList (l : List VariantField) : Except Error KdfParameters :=
  match variantListGet l keyUUID with
  | some (.Bytes uuid) =>
    match (if uuid = UUID_ARGON2D then Except.ok Argon2Variant.D
           else if uuid = UUID_ARGON2ID then Except.ok Argon2Variant.ID
           else if uuid = UUID_AESKDF then Except.error Error.AesKDFUnsupported
           else Except.error Error.UnsupportedKDF) with
    | .error e => .error e
    | .ok algorithm =>
      match variantListGet l keyS with
      | some (.Bytes salt) =>
        match variantListGet l keyV with
        | some (.U32 v) =>
          match Argon2Version.fromInt v with
          | none => .error .UnsupportedKDF
          | some version =>
            match variantListGet l keyP with
            | some (.U32 parallelism) =>
              match variantListGet l keyM with
              | some (.U64 m) =>
                if m / 1024 < 2 ^ 32 then
                  match variantListGet l keyI with
                  | some (.U64 i) =>
                    if i < 2 ^ 32 then
                      .ok ⟨algorithm, salt, version, parallelism, m / 1024, i⟩
                    else .error .KDFParameterExceedsRange
                  | _ => .error (.KdfFieldMissingOrInvalid "I")
                else .error .KDFParameterExceedsRange
              | _ => .error (.KdfFieldMissingOrInvalid "M")
            | _ => .error (.KdfFieldMissingOrInvalid "P")
        | _ => .error (.KdfFieldMissingOrInvalid "V")
      | _ => .error (.KdfFieldMissingOrInvalid "S")
  | _ => .error (.KdfFieldMissingOrInvalid "$UUID")

/-! ## Ciphers and compression (src/keepass_db/src/cipher.rs, compression.rs) -/

inductive BlockCipher where
  | Aes256
  | Twofish
  | ChaCha20
deriving DecidableEq, Repr

def UUID_AES256 : List Nat :=
  [0x31, 0xc1, 0xf2, 0xe6, 0xbf, 0x71, 0x43, 0x50, 0xbe, 0x58, 0x05, 0x21, 0x6a, 0xfc, 0x5a, 0xff]

def UUID_TWOFISH : List Nat :=
  [0xad, 0x68, 0xf2, 0x9f, 0x57, 0x6f, 0x4b, 0xb9, 0xa3, 0x6a, 0xd4, 0x7a, 0xf9, 0x65, 0x34, 0x6c]

def UUID_CHACHA20 : List Nat :=
  [0xd6, 0x03, 0x8a, 0x2b, 0x8b, 0x6f, 0x4c, 0xb5, 0xa5, 0x24, 0x33, 0x9a, 0x31, 0xdb, 0xb5, 0x9a]

/-- impl Serialize for BlockCipher (the 16-byte UUID). -/
def BlockCipher.uuid : BlockCipher → List Nat
  | .Aes256 => UUID_AES256
  | .Twofish => UUID_TWOFISH
  | .ChaCha20 => UUID_CHACHA20

/-- BlockCipher::iv_size. -/
def BlockCipher.ivSize : BlockCipher → Nat
  | .Aes256 => 16
  | .Twofish => 16
  | .ChaCha20 => 12

/-- impl Deserialize for BlockCipher (16 bytes matched against the UUIDs). -/
def BlockCipher.deserialize (input : List Nat) : Except Error (BlockCipher × List Nat) :=
  match readBytesE 16 input with
  | .error e => .error e
  | .ok (buffer, rest) =>
    if buffer = UUID_AES256 then .ok (.Aes256, rest)
    else if buffer = UUID_TWOFISH then .ok (.Twofish, rest)
    else if buffer = UUID_CHACHA20 then .ok (.ChaCha20, rest)
    else .error .UnsupportedBlockCipher

inductive Compression where
  | NoCompression
  | Gzip
deriving DecidableEq, Repr

/-- The numeric_enum wire code of a compression value (None = 0, Gzip = 1). -/
def Compression.code : Compression → Nat
  | .NoCompression => 0
  | .Gzip => 1

/-- numeric_enum deserialization of Compression (u32 LE then TryFrom). -/
def Compression.deserialize (input : List Nat) : Except Error (Compression × List Nat) :=
  match parseU32 input with
  | .error e => .error e
  | .ok (n, rest) =>
    if n = 0 then .ok (.NoCompression, rest)
    else if n = 1 then .ok (.Gzip, rest)
    else .error (.UnsupportedCompression n)

inductive StreamCipher where
  | Salsa20
  | ChaCha20
deriving DecidableEq, Repr

/-- The numeric_enum wire code of a stream cipher (Salsa20 = 2, ChaCha20 = 3). -/
def StreamCipher.code : StreamCipher → Nat
  | .Salsa20 => 2
  | .ChaCha20 => 3

/-- StreamCipher::key_size. -/
def StreamCipher.keySize : StreamCipher → Nat
  | .Salsa20 => 32
  | .ChaCha20 => 64

/-! ## Outer header (src/keepass_db/src/database_header.rs) -/

structure OuterHeader where
  cipher : BlockCipher
  compression : Compression
  main_seed : List Nat
  iv : List Nat
  kdf_parameters : KdfParameters
  custom_data : Option (List VariantField)
deriving DecidableEq, Repr

/-- impl Serialize for OuterHeader.  `none` models the panic inside
From<&KdfParameters> for the Argon2i variant. -/
def OuterHeader.serializeBytes (h : OuterHeader) : Option (List Nat) :=
  match h.kdf_parameters.toVariantList with
  | none => none
  | some kdfList =>
    some ((0x02 :: (u32le 16 ++ h.cipher.uuid)) ++
      (0x03 :: (u32le 4 ++ u32le h.compression.code)) ++
      (0x04 :: (u32le h.main_seed.length ++ h.main_seed)) ++
      (0x07 :: (u32le h.iv.length ++ h.iv)) ++
      (0x0b :: (u32le (variantListLen kdfList) ++ serializeVariantList kdfList)) ++
      (match h.custom_data with
       | some custom => 0x0c :: (u32le (variantListLen custom) ++ serializeVariantList custom)
       | none => []) ++
      (0x00 :: (u32le 4 ++ [0x0d, 0x0a, 0x0d, 0x0a])))

/-- The outer header field tags (numeric_enum OuterHeaderFieldType). -/
inductive OuterHeaderFieldType where
  | EndOfHeader
  | Comment
  | Cipher
  | Compression
  | MainSeed
  | InitializationVector
  | KdfParameters
  | CustomData
deriving DecidableEq, Repr

/-- TryFrom<u8> for OuterHeaderFieldType. -/
def OuterHeaderFieldType.ofCode (t : Nat) : Except Error OuterHeaderFieldType :=
  if t = 0 then .ok .EndOfHeader
  else if t = 1 then .ok .Comment
  else if t = 2 then .ok .Cipher
  else if t = 3 then .ok .Compression
  else if t = 4 then .ok .MainSeed
  else if t = 7 then .ok .InitializationVector
  else if t = 11 then .ok .KdfParameters
  else if t = 12 then .ok .CustomData
  else .error (.UnsupportedHeaderFieldType t)

/-- numeric_enum deserialization of OuterHeaderFieldType (u8 then TryFrom). -/
def OuterHeaderFieldType.deserialize (input : List Nat) :
    Except Error (OuterHeaderFieldType × List Nat) :=
  match parseU8 input with
  | .error e => .error e
  | .ok (t, rest) =>
    match OuterHeaderFieldType.ofCode t with
    | .error e => .error e
    | .ok ft => .ok (ft, rest)

/-- The mutable optional-field state of the OuterHeader deserialization loop. -/
structure OuterHeaderAcc where
  cipher : Option BlockCipher
  compression : Option Compression
  main_seed : Option (List Nat)
  iv : Option (List Nat)
  kdf_parameters : Option KdfParameters
  custom_data : Option (List VariantField)
deriving Repr

def OuterHeaderAcc.initial : OuterHeaderAcc := ⟨none, none, none, none, none, none⟩

/-- The final `ok_or(HeaderFieldsMissing)` checks of OuterHeader deserialization. -/
def OuterHeaderAcc.finish (acc : OuterHeaderAcc) : Except Error OuterHeader :=
  match acc.cipher with
  | none => .error .HeaderFieldsMissing
  | some cipher =>
    match acc.compression with
    | none => .error .HeaderFieldsMissing
    | some compression =>
      match acc.main_seed with
      | none => .error .HeaderFieldsMissing
      | some main_seed =>
        match acc.iv with
        | none => .error .HeaderFieldsMissing
        | some iv =>
          match acc.kdf_parameters with
          | none => .error .HeaderFieldsMissing
          | some kdf_parameters =>
            .ok ⟨cipher, compression, main_seed, iv, kdf_parameters, acc.custom_data⟩

/-- The record-reading loop of OuterHeader deserialization.  Each iteration
consumes at least one byte, so fuel `input.length + 1` is never exhausted. -/
def parseOuterHeaderLoop : Nat → OuterHeaderAcc → List Nat →
    Except Error (OuterHeader × List Nat)
  | 0, _, _ => .error .IoError
  | fuel + 1, acc, input =>
    match OuterHeaderFieldType.deserialize input with
    | .error e => .error e
    | .ok (ft, r0) =>
      match parseU32 r0 with
      | .error e => .error e
      | .ok (size, r1) =>
        match ft with
        | .Comment =>
          match readBytesE size r1 with
          | .error e => .error e
          | .ok (_, rest) => parseOuterHeaderLoop fuel acc rest
        | .Cipher =>
          if size ≠ 16 then .error .InvalidFieldSize
          else match BlockCipher.deserialize r1 with
            | .error e => .error e
            | .ok (c, rest) => parseOuterHeaderLoop fuel { acc with cipher := some c } rest
        | .Compression =>
          if size ≠ 4 then .error .InvalidFieldSize
          else match Compression.deserialize r1 with
            | .error e => .error e
            | .ok (c, rest) => parseOuterHeaderLoop fuel { acc with compression := some c } rest
        | .MainSeed =>
          match readBytesE size r1 with
          | .error e => .error e
          | .ok (seed, rest) => parseOuterHeaderLoop fuel { acc with main_seed := some seed } rest
        | .InitializationVector =>
          match readBytesE size r1 with
          | .error e => .error e
          | .ok (iv, rest) => parseOuterHeaderLoop fuel { acc with iv := some iv } rest
        | .KdfParameters =>
          match deserializeVariantList r1 with
          | .error e => .error e
          | .ok (list, rest) =>
            if variantListLen list ≠ size then .error .InvalidFieldSize
            else match KdfParameters.ofVariantList list with
              | .error e => .error e
              | .ok k => parseOuterHeaderLoop fuel { acc with kdf_parameters := some k } rest
        | .CustomData =>
          match deserializeVariantList r1 with
          | .error e => .error e
          | .ok (list, rest) =>
            if variantListLen list ≠ size then .error .InvalidFieldSize
            else parseOuterHeaderLoop fuel { acc with custom_data := some list } rest
        | .EndOfHeader =>
          match readBytesE size r1 with
          | .error e => .error e
          | .ok (_, rest) =>
            match acc.finish with
            | .error e => .error e
            | .ok h => .ok (h, rest)

/-- impl Deserialize for OuterHeader. -/
def OuterHeader.deserialize (input : List Nat) : Except Error (OuterHeader × List Nat) :=
  parseOuterHeaderLoop (input.length + 1) OuterHeaderAcc.initial input

/-! ## Abstract cryptographic and external primitives

The repository calls out to the sha2, hmac, argon2, cipher, libflate and
xmltree crates; those are outside the embedded sources and are modelled as
abstract total functions over byte lists. -/

structure CryptoPrims where
  sha256 : List Nat → List Nat
  sha512 : List Nat → List Nat
  /-- HMAC-SHA256 keyed by the first argument, applied to the second. -/
  hmacSha256 : List Nat → List Nat → List Nat
  /-- Argon2 with the stored parameters: password bytes and output size. -/
  argon2 : KdfParameters → List Nat → Nat → List Nat
  /-- libflate gzip encoding. -/
  gzip : List Nat → List Nat
  /-- BlockCipher::encrypt: cipher choice, key, IV, plaintext. -/
  encrypt : BlockCipher → List Nat → List Nat → List Nat → List Nat
  /-- xmltree serialization of the document combined with the in-place
  protect pass under the inner-header stream cipher and key. -/
  emitXml : StreamCipher → List Nat → List Nat → List Nat

/-- KdfParameters::derive_key (argon2::hash with the stored parameters). -/
def KdfParameters.deriveKey (c : CryptoPrims) (k : KdfParameters)
    (password : List Nat) (size : Nat) : List Nat :=
  c.argon2 k password size

/-! ## Keys (src/keepass_db/src/keys.rs) -/

structure Keys where
  encryption : List Nat
  hmac : List Nat
deriving DecidableEq, Repr

/-- Keys::derive. -/
def Keys.derive (c : CryptoPrims) (main_password : List Nat) (header : OuterHeader) : Keys :=
  let hashed_password := c.sha256 main_password
  let composite_key := c.sha256 hashed_password
  let derived_key := header.kdf_parameters.deriveKey c composite_key 32
  let encryption := c.sha256 (header.main_seed ++ derived_key)
  let hmac := c.sha512 (header.main_seed ++ derived_key ++ [0x01])
  ⟨encryption, hmac⟩

/-- The per-block key built inside Keys::get_hmac_hasher. -/
def Keys.hmacKeyFor (c : CryptoPrims) (keys : Keys) (block_index : Int) : List Nat :=
  c.sha512 (i64le block_index ++ keys.hmac)

/-- Finalizing the hasher returned by Keys::get_hmac_hasher on `data`. -/
def Keys.hmacHash (c : CryptoPrims) (keys : Keys) (block_index : Int)
    (data : List Nat) : List Nat :=
  c.hmacSha256 (keys.hmacKeyFor c block_index) data

/-! ## Database orchestrator (src/keepass_db/src/database.rs)

The `Cell<Vec<u8>>` holding the recorded canonical header blob is modelled
by explicit state passing: operations that go through the Cell return the
updated Database value. -/

structure Database where
  version : DatabaseVersion
  header : OuterHeader
  /-- Contents of the header_data Cell. -/
  header_data : List Nat
  header_hmac : List Nat
deriving Repr

/-- Database::get_header_hmac.  `Cell::take` empties the recorded blob, which
the returned Database reflects. -/
def Database.getHeaderHmac (c : CryptoPrims) (db : Database) (keys : Keys) :
    List Nat × Database :=
  (Keys.hmacHash c keys (-1) db.header_data, { db with header_data := [] })

/-- Database::unlock.  It takes no input stream: no ciphertext is read. -/
def Database.unlock (c : CryptoPrims) (db : Database) (main_password : List Nat) :
    Except Error Keys × Database :=
  let keys := Keys.derive c main_password db.header
  let p := db.getHeaderHmac c keys
  if p.1 ≠ db.header_hmac then (.error .InvalidCredentials, p.2)
  else (.ok keys, p.2)

/-- impl Serialize for Database: version and header through the write
recorder, followed by the SHA-256 of the recorded bytes; the Cell is set to
the recorded bytes.  `none` models the Argon2i serialization panic. -/
def Database.serializeBytes (c : CryptoPrims) (db : Database) :
    Option (List Nat × Database) :=
  match db.header.serializeBytes with
  | none => none
  | some hb =>
    let header_data := db.version.serializeBytes ++ hb
    some (header_data ++ c.sha256 header_data, { db with header_data := header_data })

/-! ## HMAC block stream (src/keepass_db/src/hmac_block_stream.rs) -/

def BLOCK_SIZE : Nat := 1024 * 1024

/-- The HMAC computed over a block in next_block / write_block:
index_le(i64) then len_le(u32) then the payload bytes, under the per-block
key for that index. -/
def hmacBlockTag (c : CryptoPrims) (keys : Keys) (index : Int) (block : List Nat) : List Nat :=
  Keys.hmacHash c keys index (i64le index ++ u32le block.length ++ block)

/-- HmacBlockStreamWriter::write_block: the bytes emitted for one block. -/
def writeBlockBytes (c : CryptoPrims) (keys : Keys) (index : Int) (block : List Nat) : List Nat :=
  hmacBlockTag c keys index block ++ u32le block.length ++ block

/-- Consecutive blocks as emitted by the writer starting at a given index. -/
def encodeBlocksFrom (c : CryptoPrims) (keys : Keys) : Int → List (List Nat) → List Nat
  | _, [] => []
  | i, b :: bs => writeBlockBytes c keys i b ++ encodeBlocksFrom c keys (i + 1) bs

/-- Splitting a list into chunks of at most `n` (the writer's buffering at
BLOCK_SIZE), driven by fuel; with `n > 0` every step drops at least one
element, so fuel `l.length` always suffices. -/
def chunksOfGo (n : Nat) : Nat → List Nat → List (List Nat)
  | 0, _ => []
  | fuel + 1, l =>
    if l = [] ∨ n = 0 then []
    else l.take n :: chunksOfGo n fuel (l.drop n)

def chunksOf (n : Nat) (l : List Nat) : List (List Nat) :=
  chunksOfGo n l.length l

/-- The full output of serializing `data` through HmacBlockStreamWriter and
calling finish: full blocks of BLOCK_SIZE, a final partial block if any, then
the zero-length terminator (which carries a valid HMAC). -/
def hmacWriterOutput (c : CryptoPrims) (keys : Keys) (data : List Nat) : List Nat :=
  let chunks := chunksOf BLOCK_SIZE data
  encodeBlocksFrom c keys 0 chunks ++ writeBlockBytes c keys chunks.length []

/-- The reader's block loop combined with Read::read_to_end.  The index is
incremented before each record is read (the caller starts it at -1); each
record is 32 hash bytes, a u32 LE length and the payload; the HMAC is checked
for every record including the zero-length terminator, and the payloads
preceding the terminator are concatenated.  Each iteration consumes at least
one input byte, so fuel `input.length + 1` is never exhausted. -/
def hmacReadBlocks (c : CryptoPrims) (keys : Keys) :
    Nat → Int → List Nat → Except Error (List Nat × List Nat)
  | 0, _, _ => .error .IoError
  | fuel + 1, index, input =>
    let index' := index + 1
    match readBytesE 32 input with
    | .error e => .error e
    | .ok (hash_expected, r1) =>
      match parseU32 r1 with
      | .error e => .error e
      | .ok (block_size, r2) =>
        match readBytesE block_size r2 with
        | .error e => .error e
        | .ok (block, r3) =>
          if Keys.hmacHash c keys index' (i64le index' ++ u32le block_size ++ block)
              ≠ hash_expected then
            .error .CorruptDatabase
          else if block_size = 0 then .ok ([], r3)
          else
            match hmacReadBlocks c keys fuel index' r3 with
            | .error e => .error e
            | .ok (out, rest) => .ok (block ++ out, rest)

/-- HmacBlockStreamReader::new followed by read_to_end. -/
def hmacReadToEnd (c : CryptoPrims) (keys : Keys) (input : List Nat) :
    Except Error (List Nat × List Nat) :=
  hmacReadBlocks c keys (input.length + 1) (-1) input

/-! ## Random source (src/keepass_db/src/random.rs)

`getrandom` is modelled as an abstract byte stream with a position. -/

structure Rng where
  stream : Nat → Nat
  pos : Nat

/-- random_vec: draw `n` fresh bytes and advance the source. -/
def Rng.draw (r : Rng) (n : Nat) : List Nat × Rng :=
  ((List.range n).map fun i => r.stream (r.pos + i) % 256, ⟨r.stream, r.pos + n⟩)

/-! ## Inner header (src/keepass_db/src/database_header.rs, binary.rs) -/

structure Binary where
  flags : Nat
  data : List Nat
deriving DecidableEq, Repr

/-- Binary::len. -/
def Binary.lenBytes (b : Binary) : Nat := 1 + b.data.length

/-- impl Serialize for Binary. -/
def Binary.serializeBytes (b : Binary) : List Nat := b.flags :: b.data

structure InnerHeader where
  cipher : StreamCipher
  key : List Nat
  binaries : List Binary
deriving DecidableEq, Repr

/-- InnerHeader::reset_cipher: force ChaCha20 and draw a fresh key of the
cipher's key size (64 bytes). -/
def InnerHeader.resetCipher (r : Rng) (ih : InnerHeader) : InnerHeader × Rng :=
  let cipher := StreamCipher.ChaCha20
  let p := r.draw cipher.keySize
  ({ ih with cipher := cipher, key := p.1 }, p.2)

/-- impl Serialize for InnerHeader. -/
def InnerHeader.serializeBytes (ih : InnerHeader) : List Nat :=
  (0x01 :: (u32le 4 ++ u32le ih.cipher.code)) ++
  (0x02 :: (u32le ih.key.length ++ ih.key)) ++
  (ih.binaries.map fun b => 0x03 :: (u32le b.lenBytes ++ b.serializeBytes)).flatten ++
  (0x00 :: u32le 0)

/-! ## Database XML view (src/keepass_db/src/database_xml.rs)

Only the parts the claims touch are embedded: the inner header it owns, the
alias map persisted in Meta/CustomData, and an abstract serialized document.
The protect pass during save is undone immediately after writing, so the
document content is unchanged by DatabaseXML::save. -/

structure DatabaseXMLM where
  inner_header : InnerHeader
  /-- Abstract stand-in for the XML document tree. -/
  content : List Nat

/-- DatabaseXML::save: reset the stream cipher, serialize the inner header,
then the document with a protect pass around it (content restored after). -/
def DatabaseXMLM.save (c : CryptoPrims) (r : Rng) (xml : DatabaseXMLM) :
    List Nat × DatabaseXMLM × Rng :=
  let p := xml.inner_header.resetCipher r
  (p.1.serializeBytes ++ c.emitXml p.1.cipher p.1.key xml.content,
   { xml with inner_header := p.1 }, p.2)

/-- Database::save: reset the IV, serialize version and header recording the
canonical blob, write the header SHA-256 and the header HMAC, serialize the
view, optionally gzip, encrypt, and frame through the HMAC block writer. -/
def Database.save (c : CryptoPrims) (r : Rng) (db : Database) (keys : Keys)
    (xml : DatabaseXMLM) : Option (List Nat × Database × DatabaseXMLM × Rng) :=
  let ivp := r.draw db.header.cipher.ivSize
  let db0 : Database := { db with header := { db.header with iv := ivp.1 } }
  match db0.serializeBytes c with
  | none => none
  | some (headerOut, db1) =>
    let hp := db1.getHeaderHmac c keys
    let xp := DatabaseXMLM.save c ivp.2 xml
    let inner_data :=
      match db0.header.compression with
      | .Gzip => c.gzip xp.1
      | .NoCompression => xp.1
    let encrypted := c.encrypt db0.header.cipher keys.encryption db0.header.iv inner_data
    some (headerOut ++ hp.1 ++ hmacWriterOutput c keys encrypted,
      hp.2, xp.2.1, xp.2.2)

/-! ## Aliases (src/keepass_db/src/database_xml.rs: get_aliases / set_aliases /
add_alias) and get-entries resolution (src/native_host/src/action_handler.rs)

The HashMap persisted in the PFP_ALIASES custom-data entry is modelled as an
association list with unique keys; get/insert have HashMap semantics.  The
claims only involve newline-free hostnames, for which the round trip through
the CustomData text encoding is the identity. -/

abbrev AliasMap := List (String × String)

/-- HashMap::get. -/
def aliasGet (m : AliasMap) (k : String) : Option String :=
  match m.find? (fun p => p.1 == k) with
  | some p => some p.2
  | none => none

/-- HashMap::insert (replace an existing binding, else append). -/
def aliasInsert (m : AliasMap) (k v : String) : AliasMap :=
  if m.any (fun p => p.1 == k) then m.map (fun p => if p.1 == k then (k, v) else p)
  else m ++ [(k, v)]

/-- The while-let walk of DatabaseXML::add_alias: follow the chain starting
at the requested hostname; bail out (returning `none`, a no-op) if the chain
reaches the alias being added or the depth cap of 10. -/
def addAliasGo (m : AliasMap) (aliasName : String) (real_hostname : String) (depth : Nat) :
    Option String :=
  match aliasGet m real_hostname with
  | none => some real_hostname
  | some hostname =>
    if hostname = aliasName ∨ 10 ≤ depth then none
    else addAliasGo m aliasName hostname (depth + 1)
termination_by 11 - depth
decreasing_by omega

/-- DatabaseXML::add_alias. -/
def addAlias (m : AliasMap) (aliasName hostname : String) : AliasMap :=
  match addAliasGo m aliasName hostname 0 with
  | none => m
  | some real_hostname => aliasInsert m aliasName real_hostname

/-- str::eq_ignore_ascii_case. -/
def asciiLower (ch : Char) : Char :=
  if 'A' ≤ ch ∧ ch ≤ 'Z' then Char.ofNat (ch.toNat + 32) else ch

def eqIgnoreAsciiCase (a b : String) : Bool :=
  a.data.map asciiLower == b.data.map asciiLower

/-- The alias resolution of Request::GetEntries:
`aliases.get(&params.hostname).unwrap_or(&params.hostname)`. -/
def resolveHostname (m : AliasMap) (hostname : String) : String :=
  (aliasGet m hostname).getD hostname

/-- Request::GetEntries filtering, with entries abstracted to their
normalized hostnames: keep the entries whose hostname equals the resolved
hostname, ASCII-case-insensitively. -/
def getEntriesFor (m : AliasMap) (entryHostnames : List String) (hostname : String) :
    List String :=
  let resolved := resolveHostname m hostname
  entryHostnames.filter fun h => eqIgnoreAsciiCase h resolved

/-! ## Normalized hostname (src/keepass_db/src/entry.rs)

`url::Url::parse` with `host_str` is an external crate, modelled as an
abstract function: `none` is a parse failure, `some none` a URL without a
host component, `some (some h)` a URL with host `h`. -/

/-- str::strip_prefix at the character level: the remainder when `pre` is a
prefix of `s`, else none. -/
def stripPrefixChars (pre s : List Char) : Option (List Char) :=
  if s.take pre.length = pre then some (s.drop pre.length) else none

def getNormalizedHostname (parseUrlHost : String → Option (Option String))
    (url : String) : String :=
  match parseUrlHost url with
  | some (some hostname) =>
    match stripPrefixChars "www.".data hostname.data with
    | some remainder => ⟨remainder⟩
    | none => if hostname = "invalid.pfp" then "" else hostname
  | some none => ""
  | none => ""

/-! ## Compact bit-packed KDF form (src/keepass_db/src/kdf_parameters.rs,
impl Serialize / impl Deserialize via bitstream-io, big-endian)

The bitstream-io writer and reader are modelled at the bit level: the writer
accumulates most-significant-bit-first bits and `byte_align` pads with zero
bits; `BitWrite::write` fails with an I/O error when the value does not fit
in the requested number of bits.  The reader consumes bits from the input
bytes; `byte_align` skips to the next byte boundary. -/

/-- Big-endian bit decomposition of `v` in `w` bits (the low `w` bits). -/
def natBits : Nat → Nat → List Bool
  | 0, _ => []
  | w + 1, v => decide (v / 2 ^ w % 2 = 1) :: natBits w v

/-- Most-significant-bit-first reassembly. -/
def bitsToNat : List Bool → Nat
  | [] => 0
  | b :: rest => (if b then 1 else 0) * 2 ^ rest.length + bitsToNat rest

def byteToBits (b : Nat) : List Bool := natBits 8 b

def bytesToBits (bs : List Nat) : List Bool := (bs.map byteToBits).flatten

def bitsToBytesGo : Nat → List Bool → List Nat
  | 0, _ => []
  | fuel + 1, l =>
    if l = [] then [] else bitsToNat (l.take 8) :: bitsToBytesGo fuel (l.drop 8)

def bitsToBytes (l : List Bool) : List Nat := bitsToBytesGo l.length l

/-- u32::BITS - leading_zeros: the number of significant bits. -/
def sigBits (v : Nat) : Nat := if v = 0 then 0 else Nat.log2 v + 1

/-- BitWrite::write of `v` in `w` bits: fails when the value is too large
for the requested bit count. -/
def bwrite (acc : List Bool) (w v : Nat) : Except Error (List Bool) :=
  if v < 2 ^ w then .ok (acc ++ natBits w v) else .error .IoError

/-- The variant code written in the 2-bit field (D = 0, I = 1, ID = 2). -/
def Argon2Variant.compactCode : Argon2Variant → Nat
  | .D => 0
  | .I => 1
  | .ID => 2

/-- The version bit (Version10 = 0, Version13 = 1). -/
def Argon2Version.compactCode : Argon2Version → Nat
  | .Version10 => 0
  | .Version13 => 1

/-- impl Serialize for KdfParameters (the compact bit-packed form). -/
def KdfParameters.serializeCompact (k : KdfParameters) : Except Error (List Nat) :=
  match bwrite [] 2 k.algorithm.compactCode with
  | .error e => .error e
  | .ok a1 =>
    match bwrite a1 1 k.version.compactCode with
    | .error e => .error e
    | .ok a2 =>
      match bwrite a2 5 (sigBits k.parallelism) with
      | .error e => .error e
      | .ok a3 =>
        match bwrite a3 (sigBits k.parallelism) k.parallelism with
        | .error e => .error e
        | .ok a4 =>
          if Nat.land k.memory 0x3FF ≠ 0 then .error .KDFParameterExceedsRange
          else
            let memory := k.memory >>> 10
            match bwrite a4 5 (sigBits memory) with
            | .error e => .error e
            | .ok a5 =>
              match bwrite a5 (sigBits memory) memory with
              | .error e => .error e
              | .ok a6 =>
                match bwrite a6 5 (sigBits k.iterations) with
                | .error e => .error e
                | .ok a7 =>
                  match bwrite a7 (sigBits k.iterations) k.iterations with
                  | .error e => .error e
                  | .ok a8 =>
                    if k.salt.length ≠ 16 then .error .KDFParameterExceedsRange
                    else
                      .ok (bitsToBytes
                            (a8 ++ List.replicate ((8 - a8.length % 8) % 8) false) ++
                           k.salt)

/-- The bit image of the numeric KDF fields exactly as the serializer lays
them down, before byte alignment. -/
def kdfBits (k : KdfParameters) : List Bool :=
  natBits 2 k.algorithm.compactCode ++ natBits 1 k.version.compactCode ++
  natBits 5 (sigBits k.parallelism) ++ natBits (sigBits k.parallelism) k.parallelism ++
  natBits 5 (sigBits (k.memory >>> 10)) ++
  natBits (sigBits (k.memory >>> 10)) (k.memory >>> 10) ++
  natBits 5 (sigBits k.iterations) ++ natBits (sigBits k.iterations) k.iterations

/-- BitRead::read of `n` bits at bit position `pos` of the input bytes;
fails with an I/O error when the underlying reader runs out of bytes. -/
def readBitsAt (input : List Nat) (pos n : Nat) : Except Error (Nat × Nat) :=
  if pos + n ≤ 8 * input.length then
    .ok (bitsToNat (((bytesToBits input).drop pos).take n), pos + n)
  else .error .IoError

/-- impl Deserialize for KdfParameters (the compact bit-packed form). -/
def KdfParameters.deserializeCompact (input : List Nat) :
    Except Error (KdfParameters × List Nat) :=
  match readBitsAt input 0 2 with
  | .error e => .error e
  | .ok (a, p1) =>
    match (if a = 0 then Except.ok Argon2Variant.D
           else if a = 1 then Except.ok Argon2Variant.I
           else if a = 2 then Except.ok Argon2Variant.ID
           else Except.error Error.UnsupportedKDF) with
    | .error e => .error e
    | .ok algorithm =>
      match readBitsAt input p1 1 with
      | .error e => .error e
      | .ok (v, p2) =>
        let version := if v = 0 then Argon2Version.Version10 else Argon2Version.Version13
        match readBitsAt input p2 5 with
        | .error e => .error e
        | .ok (bc1, p3) =>
          match readBitsAt input p3 bc1 with
          | .error e => .error e
          | .ok (parallelism, p4) =>
            match readBitsAt input p4 5 with
            | .error e => .error e
            | .ok (bc2, p5) =>
              match readBitsAt input p5 bc2 with
              | .error e => .error e
              | .ok (mraw, p6) =>
                let memory := (mraw <<< 10) % 2 ^ 32
                match readBitsAt input p6 5 with
                | .error e => .error e
                | .ok (bc3, p7) =>
                  match readBitsAt input p7 bc3 with
                  | .error e => .error e
                  | .ok (iterations, p8) =>
                    let bytePos := (p8 + 7) / 8
                    match readBytesE 16 (input.drop bytePos) with
                    | .error e => .error e
                    | .ok (salt, rest) =>
                      .ok (⟨algorithm, salt, version, parallelism, memory, iterations⟩,
                           rest)

/-! ## Validity predicates for round-trip statements

These collect the range constraints that hold of any value the Rust code can
represent (u32/u64/i32/i64 fields, Vec lengths) together with UTF-8 validity
of what Rust holds as String. -/

def ValidVariantValue : VariantValue → Prop
  | .EndOfList => False
  | .U32 v => v < 2 ^ 32
  | .U64 v => v < 2 ^ 64
  | .Bool _ => True
  | .I32 v => -2 ^ 31 ≤ v ∧ v < 2 ^ 31
  | .I64 v => -2 ^ 63 ≤ v ∧ v < 2 ^ 63
  | .String s => s.length < 2 ^ 32 ∧ isValidUtf8 s
  | .Bytes b => b.length < 2 ^ 32

instance : DecidablePred ValidVariantValue := fun v => by
  cases v <;> unfold ValidVariantValue <;> infer_instance

def ValidVariantField (f : VariantField) : Prop :=
  f.key.length < 2 ^ 32 ∧ isValidUtf8 f.key ∧ ValidVariantValue f.value

instance : DecidablePred ValidVariantField := fun f => by
  unfold ValidVariantField; infer_instance

def ValidVariantList (l : List VariantField) : Prop := ∀ f ∈ l, ValidVariantField f

instance : DecidablePred ValidVariantList := fun l => by
  unfold ValidVariantList; infer_instance

def ValidKdfParameters (k : KdfParameters) : Prop :=
  k.algorithm ≠ .I ∧ k.salt.length < 2 ^ 32 ∧ k.parallelism < 2 ^ 32 ∧
  k.memory < 2 ^ 32 ∧ k.iterations < 2 ^ 32

instance : DecidablePred ValidKdfParameters := fun k => by
  unfold ValidKdfParameters; infer_instance

def ValidOuterHeader (h : OuterHeader) : Prop :=
  h.main_seed.length < 2 ^ 32 ∧ h.iv.length < 2 ^ 32 ∧
  ValidKdfParameters h.kdf_parameters ∧
  (match h.kdf_parameters.toVariantList with
   | none => True
   | some l => variantListLen l < 2 ^ 32) ∧
  (match h.custom_data with
   | none => True
   | some cd => ValidVariantList cd ∧ variantListLen cd < 2 ^ 32)

instance : DecidablePred ValidOuterHeader := fun h => by
  unfold ValidOuterHeader
  cases h.custom_data <;> cases h.kdf_parameters.toVariantList <;>
    dsimp only <;> infer_instance

/-! ## Concrete instances used to exercise the theorems -/

/-- A concrete stand-in for the abstract crypto primitives, with the output
sizes of the real ones where a statement needs them. -/
def toyCrypto : CryptoPrims where
  sha256 := fun msg => List.replicate 31 0 ++ [msg.length % 256]
  sha512 := fun msg => List.replicate 63 1 ++ [msg.length % 256]
  hmacSha256 := fun key msg => List.replicate 30 2 ++ [key.length % 256, msg.length % 256]
  argon2 := fun _ _ size => List.replicate size 7
  gzip := fun data => 31 :: 139 :: data
  encrypt := fun _ _ _ data => data.map fun b => (b + 1) % 256
  emitXml := fun _ key content => key ++ content

/-- A concrete stand-in for url::Url::parse composed with host_str. -/
def toyParseUrlHost (url : String) : Option (Option String) :=
  if url = "https://www.example.com/" then some (some "www.example.com")
  else if url = "https://invalid.pfp/" then some (some "invalid.pfp")
  else if url = "data:text/plain," then some none
  else none

/-- A concrete KDF parameter record. -/
def sampleKdf : KdfParameters :=
  { algorithm := .D, salt := List.replicate 16 7, version := .Version13,
    parallelism := 2, memory := 65536, iterations := 3 }

/-- A concrete outer header with custom data. -/
def sampleHeader : OuterHeader :=
  { cipher := .ChaCha20, compression := .Gzip,
    main_seed := [1, 2, 3, 4], iv := [9, 8, 7],
    kdf_parameters := sampleKdf,
    custom_data := some [⟨[0x61], .U32 0x1234⟩, ⟨[0x62], .String [0x68, 0x69]⟩] }

/-- A concrete database value whose recorded blob matches its header HMAC
under `toyCrypto`. -/
def sampleDatabase : Database :=
  { version := ⟨4, 1⟩,
    header := sampleHeader,
    header_data := [1, 2, 3],
    header_hmac :=
      Keys.hmacHash toyCrypto (Keys.derive toyCrypto [5, 6] sampleHeader) (-1) [1, 2, 3] }

/-- A concrete random byte source. -/
def toyRng : Rng := ⟨fun i => (i + 3) % 256, 0⟩

/-- Concrete keys matching `sampleDatabase`. -/
def sampleKeys : Keys := Keys.derive toyCrypto [5, 6] sampleHeader

/-- A concrete database XML view with a non-ChaCha20 inner cipher. -/
def sampleXml : DatabaseXMLM :=
  { inner_header := { cipher := .Salsa20, key := [4, 4], binaries := [⟨1, [7]⟩] },
    content := [10, 11, 12] }

/-- The components of one concrete save call. -/
def saveResult : List Nat × Database × DatabaseXMLM × Rng :=
  (Database.save toyCrypto toyRng sampleDatabase sampleKeys sampleXml).getD
    ([], sampleDatabase, sampleXml, toyRng)

/-! # Theorems -/

/-! ## Byte-level lemmas -/

@[simp]
theorem leBytes_length (w n : Nat) : (leBytes w n).length = w := by
  induction w generalizing n with
  | zero => rfl
  | succ w ih => simp [leBytes, ih]

theorem fromLE_leBytes (w n : Nat) : fromLE (leBytes w n) = n % 2 ^ (8 * w) := by
  induction w generalizing n with
  | zero => simpa [leBytes, fromLE] using (Nat.mod_one n).symm
  | succ w ih =>
    have hp : (2 : Nat) ^ (8 * (w + 1)) = 256 * 2 ^ (8 * w) := by ring
    simp only [leBytes, fromLE, ih, hp]
    exact (Nat.mod_mul).symm

theorem fromLE_leBytes_of_lt {w n : Nat} (h : n < 2 ^ (8 * w)) :
    fromLE (leBytes w n) = n := by
  rw [fromLE_leBytes, Nat.mod_eq_of_lt h]

theorem isBytes_leBytes (w n : Nat) : IsBytes (leBytes w n) := by
  induction w generalizing n with
  | zero => intro b hb; simp [leBytes] at hb
  | succ w ih =>
    intro b hb
    simp only [leBytes, List.mem_cons] at hb
    rcases hb with h | h
    · omega
    · exact ih _ b h

theorem leBytes_fromLE (l : List Nat) (h : IsBytes l) :
    leBytes l.length (fromLE l) = l := by
  induction l with
  | nil => rfl
  | cons b rest ih =>
    have hb : b < 256 := h b (by simp)
    have hr : IsBytes rest := fun x hx => h x (by simp [hx])
    simp only [List.length_cons, leBytes, fromLE, List.cons.injEq]
    refine ⟨?_, ?_⟩
    · rw [Nat.add_mul_mod_self_left, Nat.mod_eq_of_lt hb]
    · rw [Nat.add_mul_div_left _ _ (by norm_num : (0 : Nat) < 256),
        Nat.div_eq_of_lt hb, Nat.zero_add]
      exact ih hr

theorem readBytesE_append (l rest : List Nat) {n : Nat} (h : l.length = n) :
    readBytesE n (l ++ rest) = .ok (l, rest) := by
  unfold readBytesE
  rw [if_pos (by simp [← h]), List.take_left' h, List.drop_left' h]

@[simp]
theorem readBytesE_append_self (l rest : List Nat) :
    readBytesE l.length (l ++ rest) = .ok (l, rest) :=
  readBytesE_append l rest rfl

@[simp]
theorem parseU8_cons (b : Nat) (rest : List Nat) : parseU8 (b :: rest) = .ok (b, rest) := rfl

@[simp]
theorem parseU16_append {v : Nat} (rest : List Nat) (h : v < 2 ^ 16) :
    parseU16 (u16le v ++ rest) = .ok (v, rest) := by
  have h2 : v < 2 ^ (8 * 2) := by omega
  simp only [parseU16, u16le, readBytesE_append _ _ (leBytes_length 2 v),
    fromLE_leBytes_of_lt h2]

@[simp]
theorem parseU32_append {v : Nat} (rest : List Nat) (h : v < 2 ^ 32) :
    parseU32 (u32le v ++ rest) = .ok (v, rest) := by
  have h2 : v < 2 ^ (8 * 4) := by omega
  simp only [parseU32, u32le, readBytesE_append _ _ (leBytes_length 4 v),
    fromLE_leBytes_of_lt h2]

@[simp]
theorem parseU64_append {v : Nat} (rest : List Nat) (h : v < 2 ^ 64) :
    parseU64 (u64le v ++ rest) = .ok (v, rest) := by
  have h2 : v < 2 ^ (8 * 8) := by omega
  simp only [parseU64, u64le, readBytesE_append _ _ (leBytes_length 8 v),
    fromLE_leBytes_of_lt h2]

/-! ## C8: database version deserialization -/

/-- C8: Deserializing a database version requires the two 32-bit magic
values (bytes 03 D9 A2 9A 67 FB 4B B5) and returns CorruptDatabase otherwise
(stated for byte inputs long enough to reach the check); it then reads minor
and major as little-endian u16 and returns UnsupportedVersion for any major
not equal to 4 while accepting any minor; the 12 bytes
03 D9 A2 9A 67 FB 4B B5 01 00 04 00 parse to (major = 4, minor = 1). -/
theorem database_version_deserialize_spec :
    (∀ input : List Nat, IsBytes input → 8 ≤ input.length →
      input.take 8 ≠ u32le SIGNATURE1 ++ u32le SIGNATURE2 →
      DatabaseVersion.deserialize input = .error .CorruptDatabase) ∧
    (∀ minor major rest, minor < 2 ^ 16 → major < 2 ^ 16 →
      DatabaseVersion.deserialize
        (u32le SIGNATURE1 ++ u32le SIGNATURE2 ++ u16le minor ++ u16le major ++ rest) =
        if major = 4 then .ok (⟨major, minor⟩, rest)
        else .error (.UnsupportedVersion major minor)) ∧
    DatabaseVersion.deserialize
      [0x03, 0xd9, 0xa2, 0x9a, 0x67, 0xfb, 0x4b, 0xb5, 0x01, 0x00, 0x04, 0x00] =
      .ok (⟨4, 1⟩, []) := by
  refine ⟨?_, ?_, by rfl⟩
  · intro input hbytes hlen hmagic
    have h4a : (input.take 4).length = 4 := by simp; omega
    have h4b : ((input.drop 4).take 4).length = 4 := by simp; omega
    have hsplit : input = input.take 4 ++ ((input.drop 4).take 4 ++ (input.drop 4).drop 4) := by
      rw [List.take_append_drop 4 (input.drop 4), List.take_append_drop 4 input]
    have hb4a : IsBytes (input.take 4) := fun b hb => hbytes b (List.mem_of_mem_take hb)
    have hb4b : IsBytes ((input.drop 4).take 4) := fun b hb =>
      hbytes b (List.mem_of_mem_drop (List.mem_of_mem_take hb))
    have hne : fromLE (input.take 4) ≠ SIGNATURE1 ∨ fromLE ((input.drop 4).take 4) ≠ SIGNATURE2 := by
      by_contra hcon
      push_neg at hcon
      apply hmagic
      have e1 : input.take 4 = u32le SIGNATURE1 := by
        have hfl := leBytes_fromLE (input.take 4) hb4a
        rw [h4a, hcon.1] at hfl
        exact hfl.symm
      have e2 : (input.drop 4).take 4 = u32le SIGNATURE2 := by
        have hfl := leBytes_fromLE ((input.drop 4).take 4) hb4b
        rw [h4b, hcon.2] at hfl
        exact hfl.symm
      have : input.take 8 = input.take 4 ++ (input.drop 4).take 4 := by
        rw [show (8 : Nat) = 4 + 4 by norm_num, List.take_add]
      rw [this, e1, e2]
    conv_lhs => rw [hsplit]
    simp only [DatabaseVersion.deserialize, parseU32,
      readBytesE_append _ _ h4a, readBytesE_append _ _ h4b]
    rw [if_pos hne]
  · intro minor major rest hminor hmajor
    simp only [List.append_assoc]
    simp only [DatabaseVersion.deserialize,
      parseU32_append _ (by decide : SIGNATURE1 < 2 ^ 32),
      parseU32_append _ (by decide : SIGNATURE2 < 2 ^ 32),
      parseU16_append _ hminor, parseU16_append _ hmajor]
    rw [if_neg (by simp)]
    by_cases h : major = 4
    · subst h; simp
    · simp [h]

/-- Witness for C8: the byte-swapped magic from the spec scenario is
rejected as CorruptDatabase, and an explicitly assembled good input parses. -/
theorem database_version_deserialize_spec_witness :
    DatabaseVersion.deserialize
      [0x05, 0x06, 0x07, 0x08, 0x01, 0x02, 0x03, 0x04, 0x01, 0x00, 0x04, 0x00] =
      .error .CorruptDatabase ∧
    DatabaseVersion.deserialize
      (u32le SIGNATURE1 ++ u32le SIGNATURE2 ++ u16le 1 ++ u16le 4 ++ [42]) =
      .ok (⟨4, 1⟩, [42]) := by
  constructor
  · exact database_version_deserialize_spec.1 _ (by decide) (by decide) (by decide)
  · rw [database_version_deserialize_spec.2.1 1 4 [42] (by norm_num) (by norm_num)]
    rfl

/-! ## Variant dictionary round-trip lemmas -/

theorem variantField_serialize_length (f : VariantField) :
    f.serializeBytes.length = f.lenBytes := by
  cases f with
  | mk key value =>
    cases value <;>
      simp [VariantField.serializeBytes, VariantField.lenBytes, VariantValue.typeCode,
        VariantValue.lenBytes, u32le, u64le, i32leInt, i64leInt, i64le] <;>
      omega

theorem intOfLe32_emod {v : Int} (h1 : -2 ^ 31 ≤ v) (h2 : v < 2 ^ 31) :
    intOfLe32 (v % (2 ^ 32 : Int)).toNat = v := by
  unfold intOfLe32
  split <;> omega

theorem intOfLe64_emod {v : Int} (h1 : -2 ^ 63 ≤ v) (h2 : v < 2 ^ 63) :
    intOfLe64 (v % (2 ^ 64 : Int)).toNat = v := by
  unfold intOfLe64
  split <;> omega

theorem parseU32_leBytes_append {v : Nat} (rest : List Nat) (h : v < 2 ^ 32) :
    parseU32 (leBytes 4 v ++ rest) = .ok (v, rest) := parseU32_append rest h

theorem parseU64_leBytes_append {v : Nat} (rest : List Nat) (h : v < 2 ^ 64) :
    parseU64 (leBytes 8 v ++ rest) = .ok (v, rest) := parseU64_append rest h

theorem parseVariantField_roundtrip (f : VariantField) (rest : List Nat)
    (hv : ValidVariantField f) (hne : f.value ≠ .EndOfList) :
    parseVariantField (f.serializeBytes ++ rest) = .ok (f, rest) := by
  obtain ⟨hklen, hkutf, hval⟩ := hv
  cases f with
  | mk key value =>
    simp only at hklen hkutf hval
    cases value with
    | EndOfList => exact absurd rfl hne
    | U32 n =>
      simp [VariantField.serializeBytes, VariantValue.typeCode, parseVariantField,
        parseVariantPayload, List.append_assoc, parseU32_append _ hklen, hkutf,
        parseU32_append _ (show (4 : Nat) < 2 ^ 32 by norm_num),
        parseU32_append _ (show n < 2 ^ 32 from hval)]
    | U64 n =>
      simp [VariantField.serializeBytes, VariantValue.typeCode, parseVariantField,
        parseVariantPayload, List.append_assoc, parseU32_append _ hklen, hkutf,
        parseU32_append _ (show (8 : Nat) < 2 ^ 32 by norm_num),
        parseU64_append _ (show n < 2 ^ 64 from hval)]
    | Bool b =>
      cases b <;>
        simp [VariantField.serializeBytes, VariantValue.typeCode, parseVariantField,
          parseVariantPayload, List.append_assoc, parseU32_append _ hklen, hkutf,
          parseU32_append _ (show (1 : Nat) < 2 ^ 32 by norm_num)]
    | I32 v =>
      obtain ⟨hlo, hhi⟩ := hval
      have hm0 : (0 : Int) ≤ v % 2 ^ 32 := Int.emod_nonneg v (by norm_num)
      have hm : v % 2 ^ 32 < 2 ^ 32 := Int.emod_lt_of_pos v (by norm_num)
      have hlt : (v % (2 ^ 32 : Int)).toNat < 2 ^ 32 := by omega
      have hI : intOfLe32 (v % (2 ^ 32 : Int)).toNat = v := intOfLe32_emod hlo hhi
      norm_num at hlt hI
      simp [VariantField.serializeBytes, VariantValue.typeCode, parseVariantField,
        parseVariantPayload, List.append_assoc, parseU32_append _ hklen, hkutf,
        parseU32_append _ (show (4 : Nat) < 2 ^ 32 by norm_num),
        i32leInt, parseU32_leBytes_append, hlt, hI]
    | I64 v =>
      obtain ⟨hlo, hhi⟩ := hval
      have hm0 : (0 : Int) ≤ v % 2 ^ 64 := Int.emod_nonneg v (by norm_num)
      have hm : v % 2 ^ 64 < 2 ^ 64 := Int.emod_lt_of_pos v (by norm_num)
      have hlt : (v % (2 ^ 64 : Int)).toNat < 2 ^ 64 := by omega
      have hI : intOfLe64 (v % (2 ^ 64 : Int)).toNat = v := intOfLe64_emod hlo hhi
      norm_num at hlt hI
      simp [VariantField.serializeBytes, VariantValue.typeCode, parseVariantField,
        parseVariantPayload, List.append_assoc, parseU32_append _ hklen, hkutf,
        parseU32_append _ (show (8 : Nat) < 2 ^ 32 by norm_num),
        i64leInt, i64le, parseU64_leBytes_append, hlt, hI]
    | String s =>
      obtain ⟨hslen, hsutf⟩ := hval
      simp [VariantField.serializeBytes, VariantValue.typeCode, parseVariantField,
        parseVariantPayload, List.append_assoc, parseU32_append _ hklen, hkutf,
        parseU32_append _ hslen, hsutf]
    | Bytes bs =>
      simp [VariantField.serializeBytes, VariantValue.typeCode, parseVariantField,
        parseVariantPayload, List.append_assoc, parseU32_append _ hklen, hkutf,
        parseU32_append _ (show bs.length < 2 ^ 32 from hval)]

theorem variantField_lenBytes_pos (f : VariantField) : 1 ≤ f.lenBytes := by
  cases f with
  | mk key value => cases value <;> simp [VariantField.lenBytes] <;> omega

theorem flatten_serialize_length_ge (fields : List VariantField) :
    fields.length ≤ ((fields.map VariantField.serializeBytes).flatten).length := by
  induction fields with
  | nil => simp
  | cons f fs ih =>
    simp only [List.map_cons, List.flatten_cons, List.length_append, List.length_cons]
    have h1 := variantField_lenBytes_pos f
    have h2 := variantField_serialize_length f
    omega

theorem parseVariantFields_roundtrip (fields : List VariantField) (rest : List Nat)
    (hv : ValidVariantList fields) (fuel : Nat) (hfuel : fields.length < fuel) :
    parseVariantFields fuel
      ((fields.map VariantField.serializeBytes).flatten ++ ([0x00] ++ rest)) =
      .ok (fields, rest) := by
  induction fields generalizing fuel rest with
  | nil =>
    obtain ⟨g, rfl⟩ : ∃ g, fuel = g + 1 := ⟨fuel - 1, by omega⟩
    simp [parseVariantFields, parseVariantField]
  | cons f fs ih =>
    obtain ⟨g, rfl⟩ : ∃ g, fuel = g + 1 := ⟨fuel - 1, by omega⟩
    have hf : ValidVariantField f := hv f (by simp)
    have hfs : ValidVariantList fs := fun x hx => hv x (by simp [hx])
    have hne : f.value ≠ .EndOfList := by
      intro h
      have := hf.2.2
      rw [h] at this
      exact this
    have hstep := ih rest hfs g (by simp at hfuel ⊢; omega)
    simp only [List.map_cons, List.flatten_cons, List.append_assoc, parseVariantFields]
    rw [parseVariantField_roundtrip f _ hf hne]
    obtain ⟨fk, fv⟩ := f
    simp only at hne
    cases fv with
    | EndOfList => exact absurd rfl hne
    | U32 n => simp only [hstep]
    | U64 n => simp only [hstep]
    | Bool b => simp only [hstep]
    | I32 v => simp only [hstep]
    | I64 v => simp only [hstep]
    | String s => simp only [hstep]
    | Bytes bs => simp only [hstep]

theorem deserializeVariantList_roundtrip (fields : List VariantField) (rest : List Nat)
    (hv : ValidVariantList fields) :
    deserializeVariantList (serializeVariantList fields ++ rest) = .ok (fields, rest) := by
  unfold deserializeVariantList serializeVariantList
  rw [List.append_assoc, List.append_assoc]
  simp only [parseU16_append _ (by norm_num : (0x0100 : Nat) < 2 ^ 16)]
  rw [if_neg (by decide)]
  have hlen := flatten_serialize_length_ge fields
  apply parseVariantFields_roundtrip fields rest hv
  simp at hlen ⊢
  omega

/-! ## KDF parameters as a variant list -/

theorem fromInt_toInt (v : Argon2Version) : Argon2Version.fromInt v.toInt = some v := by
  cases v <;> rfl

theorem kdfFields_valid (uuid : List Nat) (k : KdfParameters)
    (hu : uuid.length < 2 ^ 32) (hs : k.salt.length < 2 ^ 32) (hp : k.parallelism < 2 ^ 32)
    (hm : k.memory < 2 ^ 32) (hi : k.iterations < 2 ^ 32) :
    ValidVariantList (kdfFields uuid k) := by
  intro f hf
  simp only [kdfFields, List.mem_cons, List.not_mem_nil, or_false] at hf
  rcases hf with rfl | rfl | rfl | rfl | rfl | rfl
  all_goals dsimp only [ValidVariantField, ValidVariantValue]
  · exact ⟨by decide, by decide, hu⟩
  · exact ⟨by decide, by decide, hs⟩
  · exact ⟨by decide, by decide, by cases k.version <;> decide⟩
  · exact ⟨by decide, by decide, hp⟩
  · exact ⟨by decide, by decide, by omega⟩
  · exact ⟨by decide, by decide, by omega⟩

theorem ofVariantList_kdfFields (k : KdfParameters) (hmem : k.memory < 2 ^ 32)
    (hit : k.iterations < 2 ^ 32) (l : List VariantField)
    (hl : k.toVariantList = some l) :
    KdfParameters.ofVariantList l = .ok k := by
  have hMd : k.memory * 1024 / 1024 = k.memory := Nat.mul_div_cancel _ (by norm_num)
  cases k with
  | mk algorithm salt version parallelism memory iterations =>
    simp only at hMd hmem hit
    cases algorithm with
    | I => simp [KdfParameters.toVariantList] at hl
    | D =>
      simp only [KdfParameters.toVariantList, Option.some.injEq] at hl
      subst hl
      simp [KdfParameters.ofVariantList, variantListGet, kdfFields, List.find?,
        keyUUID, keyS, keyV, keyP, keyM, keyI, UUID_ARGON2D, UUID_ARGON2ID, UUID_AESKDF,
        fromInt_toInt, hMd, hmem, hit]
      rw [if_pos (by omega), if_pos (by omega)]
    | ID =>
      simp only [KdfParameters.toVariantList, Option.some.injEq] at hl
      subst hl
      simp [KdfParameters.ofVariantList, variantListGet, kdfFields, List.find?,
        keyUUID, keyS, keyV, keyP, keyM, keyI, UUID_ARGON2D, UUID_ARGON2ID, UUID_AESKDF,
        fromInt_toInt, hMd, hmem, hit]
      rw [if_pos (by omega), if_pos (by omega)]

/-! ## Outer header round trip -/

theorem blockCipher_deserialize_uuid (c : BlockCipher) (rest : List Nat) :
    BlockCipher.deserialize (c.uuid ++ rest) = .ok (c, rest) := by
  cases c with
  | Aes256 =>
    unfold BlockCipher.deserialize BlockCipher.uuid
    rw [readBytesE_append _ _ (by decide : UUID_AES256.length = 16)]
    simp
  | Twofish =>
    unfold BlockCipher.deserialize BlockCipher.uuid
    rw [readBytesE_append _ _ (by decide : UUID_TWOFISH.length = 16)]
    simp [UUID_TWOFISH, UUID_AES256]
  | ChaCha20 =>
    unfold BlockCipher.deserialize BlockCipher.uuid
    rw [readBytesE_append _ _ (by decide : UUID_CHACHA20.length = 16)]
    simp [UUID_CHACHA20, UUID_AES256, UUID_TWOFISH]

theorem compression_deserialize_code (comp : Compression) (rest : List Nat) :
    Compression.deserialize (u32le comp.code ++ rest) = .ok (comp, rest) := by
  cases comp with
  | NoCompression =>
    simp [Compression.deserialize, Compression.code,
      parseU32_append _ (show (0 : Nat) < 2 ^ 32 by norm_num)]
  | Gzip =>
    simp [Compression.deserialize, Compression.code,
      parseU32_append _ (show (1 : Nat) < 2 ^ 32 by norm_num)]

@[simp]
theorem outerFieldType_deserialize_end (rest : List Nat) :
    OuterHeaderFieldType.deserialize (0x00 :: rest) = .ok (.EndOfHeader, rest) := rfl

@[simp]
theorem outerFieldType_deserialize_cipher (rest : List Nat) :
    OuterHeaderFieldType.deserialize (0x02 :: rest) = .ok (.Cipher, rest) := rfl

@[simp]
theorem outerFieldType_deserialize_compression (rest : List Nat) :
    OuterHeaderFieldType.deserialize (0x03 :: rest) = .ok (.Compression, rest) := rfl

@[simp]
theorem outerFieldType_deserialize_seed (rest : List Nat) :
    OuterHeaderFieldType.deserialize (0x04 :: rest) = .ok (.MainSeed, rest) := rfl

@[simp]
theorem outerFieldType_deserialize_iv (rest : List Nat) :
    OuterHeaderFieldType.deserialize (0x07 :: rest) = .ok (.InitializationVector, rest) := rfl

@[simp]
theorem outerFieldType_deserialize_kdf (rest : List Nat) :
    OuterHeaderFieldType.deserialize (0x0b :: rest) = .ok (.KdfParameters, rest) := rfl

@[simp]
theorem outerFieldType_deserialize_custom (rest : List Nat) :
    OuterHeaderFieldType.deserialize (0x0c :: rest) = .ok (.CustomData, rest) := rfl

theorem outer_step_cipher (fuel : Nat) (acc : OuterHeaderAcc) (c : BlockCipher)
    (more : List Nat) :
    parseOuterHeaderLoop (fuel + 1) acc ((0x02 :: (u32le 16 ++ c.uuid)) ++ more) =
      parseOuterHeaderLoop fuel { acc with cipher := some c } more := by
  simp only [List.cons_append, List.append_assoc, parseOuterHeaderLoop,
    outerFieldType_deserialize_cipher,
    parseU32_append _ (show (16 : Nat) < 2 ^ 32 by norm_num),
    blockCipher_deserialize_uuid]
  rw [if_neg (by norm_num)]

theorem outer_step_compression (fuel : Nat) (acc : OuterHeaderAcc) (comp : Compression)
    (more : List Nat) :
    parseOuterHeaderLoop (fuel + 1) acc ((0x03 :: (u32le 4 ++ u32le comp.code)) ++ more) =
      parseOuterHeaderLoop fuel { acc with compression := some comp } more := by
  simp only [List.cons_append, List.append_assoc, parseOuterHeaderLoop,
    outerFieldType_deserialize_compression,
    parseU32_append _ (show (4 : Nat) < 2 ^ 32 by norm_num),
    compression_deserialize_code]
  rw [if_neg (by norm_num)]

theorem outer_step_seed (fuel : Nat) (acc : OuterHeaderAcc) (seed more : List Nat)
    (h : seed.length < 2 ^ 32) :
    parseOuterHeaderLoop (fuel + 1) acc ((0x04 :: (u32le seed.length ++ seed)) ++ more) =
      parseOuterHeaderLoop fuel { acc with main_seed := some seed } more := by
  simp only [List.cons_append, List.append_assoc, parseOuterHeaderLoop,
    outerFieldType_deserialize_seed, parseU32_append _ h, readBytesE_append_self]

theorem outer_step_iv (fuel : Nat) (acc : OuterHeaderAcc) (iv more : List Nat)
    (h : iv.length < 2 ^ 32) :
    parseOuterHeaderLoop (fuel + 1) acc ((0x07 :: (u32le iv.length ++ iv)) ++ more) =
      parseOuterHeaderLoop fuel { acc with iv := some iv } more := by
  simp only [List.cons_append, List.append_assoc, parseOuterHeaderLoop,
    outerFieldType_deserialize_iv, parseU32_append _ h, readBytesE_append_self]

theorem outer_step_kdf (fuel : Nat) (acc : OuterHeaderAcc) (list : List VariantField)
    (k : KdfParameters) (more : List Nat) (hvl : ValidVariantList list)
    (hlen : variantListLen list < 2 ^ 32)
    (hok : KdfParameters.ofVariantList list = .ok k) :
    parseOuterHeaderLoop (fuel + 1) acc
      ((0x0b :: (u32le (variantListLen list) ++ serializeVariantList list)) ++ more) =
      parseOuterHeaderLoop fuel { acc with kdf_parameters := some k } more := by
  simp only [List.cons_append, List.append_assoc, parseOuterHeaderLoop,
    outerFieldType_deserialize_kdf, parseU32_append _ hlen,
    deserializeVariantList_roundtrip list more hvl, hok]
  rw [if_neg (by simp)]

theorem outer_step_custom (fuel : Nat) (acc : OuterHeaderAcc) (list : List VariantField)
    (more : List Nat) (hvl : ValidVariantList list)
    (hlen : variantListLen list < 2 ^ 32) :
    parseOuterHeaderLoop (fuel + 1) acc
      ((0x0c :: (u32le (variantListLen list) ++ serializeVariantList list)) ++ more) =
      parseOuterHeaderLoop fuel { acc with custom_data := some list } more := by
  simp only [List.cons_append, List.append_assoc, parseOuterHeaderLoop,
    outerFieldType_deserialize_custom, parseU32_append _ hlen,
    deserializeVariantList_roundtrip list more hvl]
  rw [if_neg (by simp)]

theorem outer_step_end (fuel : Nat) (acc : OuterHeaderAcc) (h : OuterHeader)
    (more : List Nat) (hfin : acc.finish = .ok h) :
    parseOuterHeaderLoop (fuel + 1) acc
      ((0x00 :: (u32le 4 ++ [0x0d, 0x0a, 0x0d, 0x0a])) ++ more) = .ok (h, more) := by
  simp only [List.cons_append, List.append_assoc, parseOuterHeaderLoop,
    outerFieldType_deserialize_end,
    parseU32_append _ (show (4 : Nat) < 2 ^ 32 by norm_num), hfin]
  rw [show (13 : Nat) :: 10 :: 13 :: 10 :: ([] ++ more) = [13, 10, 13, 10] ++ more by simp]
  rw [readBytesE_append _ _ (show ([13, 10, 13, 10] : List Nat).length = 4 from rfl)]

theorem toVariantList_valid (k : KdfParameters) (hs : k.salt.length < 2 ^ 32)
    (hp : k.parallelism < 2 ^ 32) (hm : k.memory < 2 ^ 32) (hi : k.iterations < 2 ^ 32)
    (l : List VariantField) (hl : k.toVariantList = some l) : ValidVariantList l := by
  cases halgE : k.algorithm with
  | I =>
    unfold KdfParameters.toVariantList at hl
    rw [halgE] at hl
    simp at hl
  | D =>
    unfold KdfParameters.toVariantList at hl
    rw [halgE] at hl
    simp only [Option.some.injEq] at hl
    subst hl
    exact kdfFields_valid _ _ (by decide) hs hp hm hi
  | ID =>
    unfold KdfParameters.toVariantList at hl
    rw [halgE] at hl
    simp only [Option.some.injEq] at hl
    subst hl
    exact kdfFields_valid _ _ (by decide) hs hp hm hi

/-- C2: For every outer header with valid fields (cipher, compression, main
seed, IV, Argon2 KDF parameters with variant D or ID, optional custom data),
deserializing the bytes produced by serializing the header yields the header
back: cipher, compression, main seed, IV, KDF parameters and custom data are
all equal, and the insertion order of custom data is preserved (the custom
data lists are equal as ordered lists). -/
theorem outer_header_roundtrip (h : OuterHeader) (bytes rest : List Nat)
    (hv : ValidOuterHeader h) (hs : h.serializeBytes = some bytes) :
    OuterHeader.deserialize (bytes ++ rest) = .ok (h, rest) := by
  obtain ⟨hseed, hiv, ⟨halgI, hsalt, hpar, hmem, hiter⟩, hkl, hcd⟩ := hv
  unfold OuterHeader.serializeBytes at hs
  cases hkl' : h.kdf_parameters.toVariantList with
  | none => rw [hkl'] at hs; exact absurd hs (by simp)
  | some kdfList =>
    rw [hkl'] at hs hkl
    simp only [Option.some.injEq] at hs
    have hkv : ValidVariantList kdfList :=
      toVariantList_valid _ hsalt hpar hmem hiter _ hkl'
    have hofk : KdfParameters.ofVariantList kdfList = .ok h.kdf_parameters :=
      ofVariantList_kdfFields _ hmem hiter _ hkl'
    subst hs
    unfold OuterHeader.deserialize
    cases hcde : h.custom_data with
    | none =>
      dsimp only
      simp only [List.append_assoc, List.nil_append]
      have hblen : 7 ≤ ((0x02 :: (u32le 16 ++ h.cipher.uuid)) ++
          ((0x03 :: (u32le 4 ++ u32le h.compression.code)) ++
          ((0x04 :: (u32le h.main_seed.length ++ h.main_seed)) ++
          ((0x07 :: (u32le h.iv.length ++ h.iv)) ++
          ((0x0b :: (u32le (variantListLen kdfList) ++ serializeVariantList kdfList)) ++
          ((0x00 :: (u32le 4 ++ [0x0d, 0x0a, 0x0d, 0x0a])) ++ rest)))))).length := by
        simp
        omega
      obtain ⟨m, hm⟩ := Nat.exists_eq_add_of_le hblen
      have he : OuterHeader.mk h.cipher h.compression h.main_seed h.iv
          h.kdf_parameters none = h := by rw [← hcde]
      rw [hm, Nat.add_comm 7 m]
      rw [outer_step_cipher, outer_step_compression, outer_step_seed _ _ _ _ hseed,
        outer_step_iv _ _ _ _ hiv, outer_step_kdf _ _ _ _ _ hkv hkl hofk,
        outer_step_end _ _ _ _ (by rw [← he]; rfl)]
      conv_rhs => rw [← he]
      rfl
    | some custom =>
      rw [hcde] at hcd
      obtain ⟨hcv, hclen⟩ := hcd
      dsimp only
      simp only [List.append_assoc]
      have hblen : 8 ≤ ((0x02 :: (u32le 16 ++ h.cipher.uuid)) ++
          ((0x03 :: (u32le 4 ++ u32le h.compression.code)) ++
          ((0x04 :: (u32le h.main_seed.length ++ h.main_seed)) ++
          ((0x07 :: (u32le h.iv.length ++ h.iv)) ++
          ((0x0b :: (u32le (variantListLen kdfList) ++ serializeVariantList kdfList)) ++
          ((0x0c :: (u32le (variantListLen custom) ++ serializeVariantList custom)) ++
          ((0x00 :: (u32le 4 ++ [0x0d, 0x0a, 0x0d, 0x0a])) ++ rest))))))).length := by
        simp
        omega
      obtain ⟨m, hm⟩ := Nat.exists_eq_add_of_le hblen
      have he : OuterHeader.mk h.cipher h.compression h.main_seed h.iv
          h.kdf_parameters (some custom) = h := by rw [← hcde]
      rw [hm, Nat.add_comm 8 m]
      rw [outer_step_cipher, outer_step_compression, outer_step_seed _ _ _ _ hseed,
        outer_step_iv _ _ _ _ hiv, outer_step_kdf _ _ _ _ _ hkv hkl hofk,
        outer_step_custom _ _ _ _ hcv hclen,
        outer_step_end _ _ _ _ (by rw [← he]; rfl)]
      conv_rhs => rw [← he]

/-- Witness for C2: a concrete header with custom data round-trips through
serialization, leaving trailing input untouched. -/
theorem outer_header_roundtrip_witness :
    OuterHeader.deserialize (sampleHeader.serializeBytes.getD [] ++ [42]) =
      .ok (sampleHeader, [42]) :=
  outer_header_roundtrip sampleHeader _ [42] (by decide) (by rfl)

/-! ## C4: key derivation -/

/-- C4: Keys::derive computes derived = Argon2(SHA256(SHA256(password)),
salt, params, 32 bytes), then encryption_key = SHA256(main_seed ‖ derived)
and hmac_base = SHA512(main_seed ‖ derived ‖ 0x01); for every signed 64-bit
block index i the per-block HMAC key is SHA512(i_le ‖ hmac_base), used with
HMAC-SHA256.  When the SHA-256/SHA-512 primitives produce 32/64 bytes, the
two keys have 32 and 64 bytes. -/
theorem keys_derive_spec (c : CryptoPrims) (pw : List Nat) (h : OuterHeader) :
    (Keys.derive c pw h).encryption =
      c.sha256 (h.main_seed ++ h.kdf_parameters.deriveKey c (c.sha256 (c.sha256 pw)) 32) ∧
    (Keys.derive c pw h).hmac =
      c.sha512 (h.main_seed ++ h.kdf_parameters.deriveKey c (c.sha256 (c.sha256 pw)) 32
        ++ [0x01]) ∧
    (∀ i : Int, (Keys.derive c pw h).hmacKeyFor c i =
      c.sha512 (i64le i ++ (Keys.derive c pw h).hmac)) ∧
    (∀ i data, Keys.hmacHash c (Keys.derive c pw h) i data =
      c.hmacSha256 ((Keys.derive c pw h).hmacKeyFor c i) data) ∧
    ((∀ x, (c.sha256 x).length = 32) → (Keys.derive c pw h).encryption.length = 32) ∧
    ((∀ x, (c.sha512 x).length = 64) → (Keys.derive c pw h).hmac.length = 64) := by
  refine ⟨rfl, rfl, fun i => rfl, fun i data => rfl, fun h32 => ?_, fun h64 => ?_⟩
  · exact h32 _
  · exact h64 _

/-- Witness for C4: under the concrete primitives (whose outputs have the
real sizes) the derived keys have 32 and 64 bytes. -/
theorem keys_derive_spec_witness :
    (Keys.derive toyCrypto [1] sampleHeader).encryption.length = 32 ∧
    (Keys.derive toyCrypto [1] sampleHeader).hmac.length = 64 :=
  ⟨(keys_derive_spec toyCrypto [1] sampleHeader).2.2.2.2.1 (fun x => by simp [toyCrypto]),
   (keys_derive_spec toyCrypto [1] sampleHeader).2.2.2.2.2 (fun x => by simp [toyCrypto])⟩

/-! ## C1: unlock gates on the header HMAC -/

/-- C1: Database::unlock derives the keys and returns them if and only if
the HMAC-SHA256 of the recorded canonical header blob, computed with the
per-block key for index -1, equals the header HMAC read from the file; on
mismatch it returns InvalidCredentials.  unlock takes no input stream (its
arguments are only the Database value and the password), so it reads no
ciphertext. -/
theorem unlock_header_hmac_gate (c : CryptoPrims) (db : Database) (pw : List Nat) :
    ((db.unlock c pw).1 = .ok (Keys.derive c pw db.header) ↔
      Keys.hmacHash c (Keys.derive c pw db.header) (-1) db.header_data = db.header_hmac) ∧
    (∀ k, (db.unlock c pw).1 = .ok k → k = Keys.derive c pw db.header) ∧
    (Keys.hmacHash c (Keys.derive c pw db.header) (-1) db.header_data ≠ db.header_hmac →
      (db.unlock c pw).1 = .error .InvalidCredentials) := by
  unfold Database.unlock Database.getHeaderHmac
  by_cases hm : Keys.hmacHash c (Keys.derive c pw db.header) (-1) db.header_data
      = db.header_hmac
  · rw [if_neg (by simpa using hm)]
    exact ⟨by simp [hm], by simp, by simp [hm]⟩
  · rw [if_pos (by simpa using hm)]
    exact ⟨by simp [hm], by simp, by simp⟩

/-- Witness for C1: the sample database unlocks with the matching password
state, and with a corrupted stored HMAC the result is InvalidCredentials. -/
theorem unlock_header_hmac_gate_witness :
    (sampleDatabase.unlock toyCrypto [5, 6]).1 =
      .ok (Keys.derive toyCrypto [5, 6] sampleDatabase.header) ∧
    (({ sampleDatabase with header_hmac := [9] } : Database).unlock toyCrypto [5, 6]).1 =
      .error .InvalidCredentials :=
  ⟨(unlock_header_hmac_gate toyCrypto sampleDatabase [5, 6]).1.mpr rfl,
   (unlock_header_hmac_gate toyCrypto { sampleDatabase with header_hmac := [9] }
     [5, 6]).2.2 (by decide)⟩

/-! ## C10: the Cell holding the canonical blob is consumed by unlock -/

/-- C10: computing the header HMAC consumes the recorded canonical header
blob (Cell::take empties it), so after one unlock every further unlock on the
same Database value compares against the empty blob and (whenever the HMAC of
the empty blob differs from the stored one, as for any real HMAC) returns
InvalidCredentials even for the correct password, until a serialize call
repopulates the recorded blob with the serialized version and header bytes. -/
theorem unlock_consumes_header_blob (c : CryptoPrims) (db : Database) (pw pw2 : List Nat) :
    ((db.unlock c pw).2.header_data = []) ∧
    (∀ db0 : Database, db0.header_data = [] →
      Keys.hmacHash c (Keys.derive c pw2 db0.header) (-1) [] ≠ db0.header_hmac →
      (db0.unlock c pw2).1 = .error .InvalidCredentials ∧
      (db0.unlock c pw2).2.header_data = []) ∧
    (∀ out db1, db.serializeBytes c = some (out, db1) →
      ∃ hb, db.header.serializeBytes = some hb ∧
        db1.header_data = db.version.serializeBytes ++ hb ∧
        db1.header_data ≠ [] ∧
        out = db1.header_data ++ c.sha256 db1.header_data) := by
  refine ⟨?_, ?_, ?_⟩
  · unfold Database.unlock Database.getHeaderHmac
    by_cases hm : Keys.hmacHash c (Keys.derive c pw db.header) (-1) db.header_data
        = db.header_hmac
    · rw [if_neg (by simpa using hm)]
    · rw [if_pos (by simpa using hm)]
  · intro db0 hempty hne
    unfold Database.unlock Database.getHeaderHmac
    rw [hempty]
    rw [if_pos (by simpa using hne)]
    exact ⟨rfl, rfl⟩
  · intro out db1 hser
    unfold Database.serializeBytes at hser
    cases hhb : db.header.serializeBytes with
    | none => rw [hhb] at hser; simp at hser
    | some hb =>
      rw [hhb] at hser
      simp only [Option.some.injEq, Prod.mk.injEq] at hser
      obtain ⟨hout, hdb1⟩ := hser
      subst hout hdb1
      refine ⟨hb, rfl, rfl, ?_, rfl⟩
      intro hx
      have hlen := congrArg List.length hx
      simp [DatabaseVersion.serializeBytes, u32le, u16le] at hlen

/-- Witness for C10: after one unlock of the sample database, a second
unlock with the same (correct) password returns InvalidCredentials. -/
theorem unlock_consumes_header_blob_witness :
    (((sampleDatabase.unlock toyCrypto [5, 6]).2).unlock toyCrypto [5, 6]).1 =
      .error .InvalidCredentials := by
  have h := unlock_consumes_header_blob toyCrypto sampleDatabase [5, 6] [5, 6]
  exact (h.2.1 _ h.1 (by decide)).1

/-! ## C5: alias resolution (corrected) -/

/-- C5 counterexample: after add_alias("a","b") then add_alias("b","c"), the
get-entries alias lookup for "a" is a single map access and resolves to "b",
not "c"; an entry whose hostname is "c" is not returned.  This contradicts
the claim that the lookup resolves to the entries whose hostname is "c". -/
theorem alias_transitivity_counterexample :
    resolveHostname (addAlias (addAlias [] "a" "b") "b" "c") "a" = "b" ∧
    getEntriesFor (addAlias (addAlias [] "a" "b") "b" "c") ["c"] "a" = [] ∧
    ("b" : String) ≠ "c" := by
  refine ⟨?_, ?_, by decide⟩
  · simp [addAlias, addAliasGo, aliasGet, aliasInsert, resolveHostname, List.find?]
  · simp [getEntriesFor, resolveHostname, addAlias, addAliasGo, aliasGet, aliasInsert,
      List.find?, eqIgnoreAsciiCase, asciiLower]

/-- C5 (amended): after add_alias("a","b") then add_alias("b","c") the alias
map is {a→b, b→c} and get_entries with hostname "a" resolves to the entries
whose hostname is "b" (a single lookup); transitive folding happens only at
insertion time, so adding in the order add_alias("b","c"); add_alias("a","b")
resolves "a" to "c".  Adding a cycle via add_alias("a","b") then
add_alias("b","a") leaves the first mapping in place and the second call is a
no-op that leaves the alias map unchanged. -/
theorem alias_resolution_spec :
    addAlias [] "a" "b" = [("a", "b")] ∧
    addAlias (addAlias [] "a" "b") "b" "c" = [("a", "b"), ("b", "c")] ∧
    resolveHostname (addAlias (addAlias [] "a" "b") "b" "c") "a" = "b" ∧
    getEntriesFor (addAlias (addAlias [] "a" "b") "b" "c") ["b", "c"] "a" = ["b"] ∧
    resolveHostname (addAlias (addAlias [] "b" "c") "a" "b") "a" = "c" ∧
    addAlias (addAlias [] "a" "b") "b" "a" = addAlias [] "a" "b" := by
  refine ⟨?_, ?_, ?_, ?_, ?_, ?_⟩ <;>
    simp [getEntriesFor, resolveHostname, addAlias, addAliasGo, aliasGet, aliasInsert,
      List.find?, eqIgnoreAsciiCase, asciiLower]

/-! ## C9: normalized hostname -/

/-- C9: the hostname derived from an entry's URL is the URL's host with a
leading "www." stripped (str::strip_prefix), the sentinel host "invalid.pfp"
otherwise mapped to the empty string, and the host itself otherwise; a URL
that fails to parse or has no host component yields the empty string.  The
url crate's parser is an abstract parameter. -/
theorem normalized_hostname_spec (p : String → Option (Option String)) (url : String) :
    (∀ hostname, p url = some (some hostname) →
      getNormalizedHostname p url =
        (match stripPrefixChars "www.".data hostname.data with
         | some remainder => (⟨remainder⟩ : String)
         | none => if hostname = "invalid.pfp" then "" else hostname)) ∧
    (p url = some none → getNormalizedHostname p url = "") ∧
    (p url = none → getNormalizedHostname p url = "") := by
  refine ⟨fun hostname hp => ?_, fun hp => ?_, fun hp => ?_⟩ <;>
    simp [getNormalizedHostname, hp]

/-- Witness for C9: with a concrete parser a www-host is stripped, the
sentinel maps to the empty string, and a host-less URL yields the empty
string. -/
theorem normalized_hostname_spec_witness :
    getNormalizedHostname toyParseUrlHost "https://www.example.com/" = "example.com" ∧
    getNormalizedHostname toyParseUrlHost "https://invalid.pfp/" = "" ∧
    getNormalizedHostname toyParseUrlHost "data:text/plain," = "" := by
  refine ⟨?_, ?_, ?_⟩
  · rw [(normalized_hostname_spec toyParseUrlHost "https://www.example.com/").1
      "www.example.com" (by decide)]
    decide
  · rw [(normalized_hostname_spec toyParseUrlHost "https://invalid.pfp/").1
      "invalid.pfp" (by decide)]
    decide
  · exact (normalized_hostname_spec toyParseUrlHost "data:text/plain,").2.1 (by decide)

/-! ## C3: HMAC block stream reader -/

theorem hmacReadBlocks_encode (c : CryptoPrims) (keys : Keys)
    (hlen : ∀ k d, (c.hmacSha256 k d).length = 32) :
    ∀ (blocks : List (List Nat)) (i : Int) (rest : List Nat) (fuel : Nat),
      (∀ b ∈ blocks, b ≠ [] ∧ b.length < 2 ^ 32) → blocks.length < fuel →
      hmacReadBlocks c keys fuel i
        (encodeBlocksFrom c keys (i + 1) blocks ++
          (writeBlockBytes c keys (i + 1 + blocks.length) [] ++ rest)) =
        .ok (blocks.flatten, rest) := by
  have h32 : ∀ (j : Int) (d : List Nat), (Keys.hmacHash c keys j d).length = 32 :=
    fun j d => hlen _ _
  intro blocks
  induction blocks with
  | nil =>
    intro i rest fuel _ hfuel
    obtain ⟨g, rfl⟩ : ∃ g, fuel = g + 1 := ⟨fuel - 1, by omega⟩
    simp only [encodeBlocksFrom, List.nil_append, writeBlockBytes, hmacBlockTag,
      List.length_nil, Nat.cast_zero, add_zero, List.append_assoc]
    simp [hmacReadBlocks, readBytesE_append, parseU32_append, h32, readBytesE]
  | cons b bs ih =>
    intro i rest fuel hv hfuel
    obtain ⟨g, rfl⟩ : ∃ g, fuel = g + 1 := ⟨fuel - 1, by omega⟩
    obtain ⟨hbne, hblt⟩ := hv b (by simp)
    have hbs : ∀ x ∈ bs, x ≠ [] ∧ x.length < 2 ^ 32 := fun x hx => hv x (by simp [hx])
    have hstep := ih (i + 1) rest g hbs (by simp at hfuel ⊢; omega)
    have hterm : i + 1 + ((b :: bs).length : Int) = i + 1 + 1 + (bs.length : Int) := by
      simp only [List.length_cons]
      push_cast
      ring
    have hblt' : b.length < 4294967296 := by omega
    simp only [writeBlockBytes, hmacBlockTag, Keys.hmacHash, List.length_nil,
      List.append_nil, List.append_assoc, List.nil_append] at hstep
    simp only [encodeBlocksFrom, writeBlockBytes, hmacBlockTag, Keys.hmacHash,
      List.length_nil, List.append_nil, List.append_assoc, List.nil_append, hterm]
    simp [hmacReadBlocks, readBytesE_append, parseU32_append, Keys.hmacHash, h32,
      hlen, hblt, hblt', List.length_eq_zero, hbne, hstep]

theorem hmacReadBlocks_encode_bad (c : CryptoPrims) (keys : Keys)
    (hlen : ∀ k d, (c.hmacSha256 k d).length = 32) :
    ∀ (blocks : List (List Nat)) (i : Int) (badHash len payload rest : List Nat)
      (fuel : Nat),
      (∀ b ∈ blocks, b ≠ [] ∧ b.length < 2 ^ 32) → blocks.length < fuel →
      badHash.length = 32 → payload.length < 2 ^ 32 → len = u32le payload.length →
      badHash ≠ Keys.hmacHash c keys (i + 1 + blocks.length)
        (i64le (i + 1 + blocks.length) ++ u32le payload.length ++ payload) →
      hmacReadBlocks c keys fuel i
        (encodeBlocksFrom c keys (i + 1) blocks ++
          (badHash ++ (len ++ (payload ++ rest)))) =
        .error .CorruptDatabase := by
  have h32h : ∀ (j : Int) (d : List Nat), (Keys.hmacHash c keys j d).length = 32 :=
    fun j d => hlen _ _
  intro blocks
  induction blocks with
  | nil =>
    intro i badHash len payload rest fuel _ hfuel h32 hplt hlenenc hbad
    obtain ⟨g, rfl⟩ : ∃ g, fuel = g + 1 := ⟨fuel - 1, by omega⟩
    subst hlenenc
    simp only [encodeBlocksFrom, List.nil_append, List.length_nil, Nat.cast_zero,
      add_zero] at hbad ⊢
    have hplt' : payload.length < 4294967296 := by omega
    simp only [List.append_assoc] at hbad
    simp [hmacReadBlocks, readBytesE_append, parseU32_append, h32, h32h, hplt,
      hplt', Ne.symm hbad]
  | cons b bs ih =>
    intro i badHash len payload rest fuel hv hfuel h32 hplt hlenenc hbad
    obtain ⟨g, rfl⟩ : ∃ g, fuel = g + 1 := ⟨fuel - 1, by omega⟩
    obtain ⟨hbne, hblt⟩ := hv b (by simp)
    have hbs : ∀ x ∈ bs, x ≠ [] ∧ x.length < 2 ^ 32 := fun x hx => hv x (by simp [hx])
    have hterm : i + 1 + ((b :: bs).length : Int) = i + 1 + 1 + (bs.length : Int) := by
      simp only [List.length_cons]
      push_cast
      ring
    rw [hterm] at hbad
    have hstep := ih (i + 1) badHash len payload rest g hbs
      (by simp at hfuel ⊢; omega) h32 hplt hlenenc hbad
    have hblt' : b.length < 4294967296 := by omega
    simp only [encodeBlocksFrom, writeBlockBytes, hmacBlockTag, Keys.hmacHash,
      List.append_assoc] at hstep ⊢
    simp [hmacReadBlocks, readBytesE_append, parseU32_append, Keys.hmacHash, h32h,
      hlen, hblt, hblt', List.length_eq_zero, hbne, hstep]

theorem encodeBlocksFrom_length_ge (c : CryptoPrims) (keys : Keys)
    (hlen : ∀ k d, (c.hmacSha256 k d).length = 32) (blocks : List (List Nat)) (i : Int) :
    blocks.length ≤ (encodeBlocksFrom c keys i blocks).length := by
  induction blocks generalizing i with
  | nil => simp [encodeBlocksFrom]
  | cons b bs ih =>
    simp only [encodeBlocksFrom, writeBlockBytes, hmacBlockTag, List.length_append,
      List.length_cons]
    have h := ih (i + 1)
    have h2 := hlen (keys.hmacKeyFor c i) (i64le i ++ u32le b.length ++ b)
    simp only [Keys.hmacHash] at *
    omega

/-- C3: the HMAC block-stream reader starts with block index -1 and
increments it before reading each record; for every record it checks the
HMAC-SHA256 of index_le(i64) ‖ len_le(u32) ‖ payload under the per-block key
for that index, returning CorruptDatabase on any mismatch — including one on
the zero-length terminator record — and when all HMACs verify, draining the
reader yields exactly the concatenation of the payloads of the records
preceding the terminator, in order. -/
theorem hmac_block_stream_read_spec (c : CryptoPrims) (keys : Keys)
    (hlen : ∀ k d, (c.hmacSha256 k d).length = 32) :
    (∀ (blocks : List (List Nat)) (rest : List Nat),
      (∀ b ∈ blocks, b ≠ [] ∧ b.length < 2 ^ 32) →
      hmacReadToEnd c keys
        (encodeBlocksFrom c keys 0 blocks ++
          (writeBlockBytes c keys blocks.length [] ++ rest)) =
        .ok (blocks.flatten, rest)) ∧
    (∀ (blocks : List (List Nat)) (badHash payload rest : List Nat),
      (∀ b ∈ blocks, b ≠ [] ∧ b.length < 2 ^ 32) →
      badHash.length = 32 → payload.length < 2 ^ 32 →
      badHash ≠ Keys.hmacHash c keys blocks.length
        (i64le blocks.length ++ u32le payload.length ++ payload) →
      hmacReadToEnd c keys
        (encodeBlocksFrom c keys 0 blocks ++
          (badHash ++ (u32le payload.length ++ (payload ++ rest)))) =
        .error .CorruptDatabase) := by
  constructor
  · intro blocks rest hv
    unfold hmacReadToEnd
    have h := hmacReadBlocks_encode c keys hlen blocks (-1) rest
      ((encodeBlocksFrom c keys 0 blocks ++
        (writeBlockBytes c keys blocks.length [] ++ rest)).length + 1) hv ?_
    · simpa using h
    · have := encodeBlocksFrom_length_ge c keys hlen blocks 0
      simp only [List.length_append]
      omega
  · intro blocks badHash payload rest hv h32 hplt hbad
    unfold hmacReadToEnd
    have h := hmacReadBlocks_encode_bad c keys hlen blocks (-1) badHash
      (u32le payload.length) payload rest
      ((encodeBlocksFrom c keys 0 blocks ++
        (badHash ++ (u32le payload.length ++ (payload ++ rest)))).length + 1) hv ?_
      h32 hplt rfl (by simpa using hbad)
    · simpa using h
    · have := encodeBlocksFrom_length_ge c keys hlen blocks 0
      simp only [List.length_append]
      omega

/-- Witness for C3: under the concrete primitives, an encoded two-block
stream drains to the concatenated payloads, and corrupting the first hash
byte gives CorruptDatabase. -/
theorem hmac_block_stream_read_spec_witness :
    hmacReadToEnd toyCrypto ⟨[1], [2]⟩
      (encodeBlocksFrom toyCrypto ⟨[1], [2]⟩ 0 [[5, 6], [7]] ++
        (writeBlockBytes toyCrypto ⟨[1], [2]⟩ 2 [] ++ [9])) =
      .ok ([5, 6, 7], [9]) ∧
    hmacReadToEnd toyCrypto ⟨[1], [2]⟩
      (encodeBlocksFrom toyCrypto ⟨[1], [2]⟩ 0 [] ++
        (List.replicate 32 3 ++ (u32le 1 ++ ([8] ++ [])))) =
      .error .CorruptDatabase := by
  have hlen : ∀ k d, (CryptoPrims.hmacSha256 toyCrypto k d).length = 32 := by
    intro k d
    simp [toyCrypto]
  constructor
  · have h := (hmac_block_stream_read_spec toyCrypto ⟨[1], [2]⟩ hlen).1
      [[5, 6], [7]] [9] (by decide)
    simpa using h
  · have h := (hmac_block_stream_read_spec toyCrypto ⟨[1], [2]⟩ hlen).2
      [] (List.replicate 32 3) [8] [] (by decide) (by simp) (by norm_num)
      (by decide)
    simpa using h


/-! ## C7: save frame effect -/

theorem rng_draw_length (r : Rng) (n : Nat) : (r.draw n).1.length = n := by
  simp [Rng.draw]

/-- C7: every call to Database::save first re-randomizes the outer header's
initialization vector (to the cipher's IV size, drawn from the random
source) and forces the inner header's stream cipher to ChaCha20 with a fresh
64-byte random key, while leaving the KDF salt and all other outer-header
fields (cipher choice, compression, main seed, KDF parameters, custom data)
unchanged; the XML document content is also unchanged. -/
theorem database_save_frame (c : CryptoPrims) (r : Rng) (db : Database)
    (keys : Keys) (xml : DatabaseXMLM) (out : List Nat) (db2 : Database)
    (xml2 : DatabaseXMLM) (r2 : Rng)
    (hsave : Database.save c r db keys xml = some (out, db2, xml2, r2)) :
    db2.header.iv = (r.draw db.header.cipher.ivSize).1 ∧
    db2.header.iv.length = db.header.cipher.ivSize ∧
    xml2.inner_header.cipher = StreamCipher.ChaCha20 ∧
    xml2.inner_header.key = ((r.draw db.header.cipher.ivSize).2.draw 64).1 ∧
    xml2.inner_header.key.length = 64 ∧
    db2.header.kdf_parameters.salt = db.header.kdf_parameters.salt ∧
    db2.header.cipher = db.header.cipher ∧
    db2.header.compression = db.header.compression ∧
    db2.header.main_seed = db.header.main_seed ∧
    db2.header.kdf_parameters = db.header.kdf_parameters ∧
    db2.header.custom_data = db.header.custom_data ∧
    xml2.inner_header.binaries = xml.inner_header.binaries ∧
    xml2.content = xml.content := by
  simp only [Database.save, Database.serializeBytes, Database.getHeaderHmac,
    DatabaseXMLM.save, InnerHeader.resetCipher, StreamCipher.keySize] at hsave
  cases hb : OuterHeader.serializeBytes
      { db.header with iv := (r.draw db.header.cipher.ivSize).1 } with
  | none =>
    rw [hb] at hsave
    simp at hsave
  | some hbv =>
    rw [hb] at hsave
    simp only [Option.some.injEq, Prod.mk.injEq] at hsave
    obtain ⟨-, hdb2, hxml2, -⟩ := hsave
    subst hdb2 hxml2
    refine ⟨rfl, rng_draw_length r _, rfl, rfl, rng_draw_length _ 64,
      rfl, rfl, rfl, rfl, rfl, rfl, rfl, rfl⟩

/-- Witness for C7: on a concrete database whose XML view starts with a
Salsa20 inner cipher, save re-draws the IV at the cipher's IV size, forces
ChaCha20 with a 64-byte key, and keeps the KDF parameters. -/
theorem database_save_frame_witness :
    (Database.save toyCrypto toyRng sampleDatabase sampleKeys sampleXml =
      some (saveResult.1, saveResult.2.1, saveResult.2.2.1, saveResult.2.2.2)) ∧
    saveResult.2.1.header.iv.length = sampleDatabase.header.cipher.ivSize ∧
    saveResult.2.2.1.inner_header.cipher = StreamCipher.ChaCha20 ∧
    saveResult.2.2.1.inner_header.key.length = 64 ∧
    saveResult.2.1.header.kdf_parameters = sampleDatabase.header.kdf_parameters ∧
    saveResult.2.2.1.content = sampleXml.content := by
  have hs : Database.save toyCrypto toyRng sampleDatabase sampleKeys sampleXml =
      some (saveResult.1, saveResult.2.1, saveResult.2.2.1, saveResult.2.2.2) := rfl
  obtain ⟨h1, h2, h3, h4, h5, h6, h7, h8, h9, h10, h11, h12, h13⟩ :=
    database_save_frame toyCrypto toyRng sampleDatabase sampleKeys sampleXml
      saveResult.1 saveResult.2.1 saveResult.2.2.1 saveResult.2.2.2 hs
  exact ⟨hs, h2, h3, h5, h10, h13⟩


/-! ## C6: compact bit-packed KDF form -/

theorem natBits_length (w v : Nat) : (natBits w v).length = w := by
  induction w generalizing v with
  | zero => rfl
  | succ w ih => simp [natBits, ih]

theorem bitsToNat_natBits (w v : Nat) : bitsToNat (natBits w v) = v % 2 ^ w := by
  induction w generalizing v with
  | zero => simp [natBits, bitsToNat, Nat.mod_one]
  | succ w ih =>
    have h2 : v % (2 ^ w * 2) = v % 2 ^ w + 2 ^ w * (v / 2 ^ w % 2) := Nat.mod_mul
    simp only [natBits, bitsToNat, natBits_length, ih, pow_succ, h2]
    rcases Nat.mod_two_eq_zero_or_one (v / 2 ^ w) with h | h <;> simp [h] <;> omega

theorem bitsToNat_lt (l : List Bool) : bitsToNat l < 2 ^ l.length := by
  induction l with
  | nil => simp [bitsToNat]
  | cons b rest ih =>
    simp only [bitsToNat, List.length_cons, pow_succ]
    cases b <;> simp <;> omega

theorem natBits_add_mul_pow (w : Nat) : ∀ y c, natBits w (y + c * 2 ^ w) = natBits w y := by
  induction w with
  | zero => intro y c; rfl
  | succ w ih =>
    intro y c
    have hrw : y + c * 2 ^ (w + 1) = y + 2 * c * 2 ^ w := by ring
    have hd : (y + 2 * c * 2 ^ w) / 2 ^ w % 2 = y / 2 ^ w % 2 := by
      rw [Nat.add_mul_div_right _ _ (Nat.two_pow_pos w)]
      omega
    simp only [natBits, hrw, ih y (2 * c), hd]

theorem natBits_bitsToNat (l : List Bool) : natBits l.length (bitsToNat l) = l := by
  induction l with
  | nil => rfl
  | cons b rest ih =>
    have hlt := bitsToNat_lt rest
    have hx : (if b then 1 else 0) * 2 ^ rest.length + bitsToNat rest
        = bitsToNat rest + (if b then 1 else 0) * 2 ^ rest.length := by ring
    have hd : (bitsToNat rest + (if b then 1 else 0) * 2 ^ rest.length) / 2 ^ rest.length % 2
        = (if b then 1 else 0) % 2 := by
      rw [Nat.add_mul_div_right _ _ (Nat.two_pow_pos rest.length),
        Nat.div_eq_of_lt hlt, Nat.zero_add]
    simp only [bitsToNat, List.length_cons, natBits, hx, natBits_add_mul_pow, ih, hd]
    cases b <;> simp

theorem bytesToBits_append (a b : List Nat) :
    bytesToBits (a ++ b) = bytesToBits a ++ bytesToBits b := by
  simp [bytesToBits]

theorem bytesToBits_length (bs : List Nat) : (bytesToBits bs).length = 8 * bs.length := by
  induction bs with
  | nil => rfl
  | cons x xs ih =>
    simp only [bytesToBits, List.map_cons, List.flatten_cons, List.length_append,
      List.length_cons, byteToBits, natBits_length]
    simp only [bytesToBits] at ih
    omega

theorem bytesToBits_bitsToBytesGo (fuel : Nat) : ∀ l : List Bool,
    l.length ≤ fuel → l.length % 8 = 0 → bytesToBits (bitsToBytesGo fuel l) = l := by
  induction fuel with
  | zero =>
    intro l hle _
    have hl : l = [] := List.eq_nil_of_length_eq_zero (by omega)
    subst hl; rfl
  | succ fuel ih =>
    intro l hle hmod
    by_cases hnil : l = []
    · subst hnil; rfl
    · have hpos : 0 < l.length := List.length_pos.mpr hnil
      have hlen : 8 ≤ l.length := by omega
      have htake : (l.take 8).length = 8 := by
        simp only [List.length_take]
        omega
      have hnb := natBits_bitsToNat (l.take 8)
      rw [htake] at hnb
      simp only [bitsToBytesGo, if_neg hnil]
      have hflat : bytesToBits (bitsToNat (l.take 8) :: bitsToBytesGo fuel (l.drop 8))
          = byteToBits (bitsToNat (l.take 8)) ++ bytesToBits (bitsToBytesGo fuel (l.drop 8)) := rfl
      rw [hflat, ih (l.drop 8) (by simp only [List.length_drop]; omega)
        (by simp only [List.length_drop]; omega)]
      simp only [byteToBits, hnb]
      exact List.take_append_drop 8 l

theorem bytesToBits_bitsToBytes (l : List Bool) (h : l.length % 8 = 0) :
    bytesToBits (bitsToBytes l) = l :=
  bytesToBits_bitsToBytesGo l.length l le_rfl h

theorem bitsToBytesGo_length (fuel : Nat) : ∀ l : List Bool, l.length ≤ fuel →
    (bitsToBytesGo fuel l).length = (l.length + 7) / 8 := by
  induction fuel with
  | zero =>
    intro l hle
    have hl : l = [] := List.eq_nil_of_length_eq_zero (by omega)
    subst hl; rfl
  | succ fuel ih =>
    intro l hle
    by_cases hnil : l = []
    · subst hnil; rfl
    · have hpos : 0 < l.length := List.length_pos.mpr hnil
      simp only [bitsToBytesGo, if_neg hnil, List.length_cons,
        ih (l.drop 8) (by simp only [List.length_drop]; omega), List.length_drop]
      omega

theorem bitsToBytes_length (l : List Bool) : (bitsToBytes l).length = (l.length + 7) / 8 :=
  bitsToBytesGo_length l.length l le_rfl

theorem lt_two_pow_sigBits (v : Nat) : v < 2 ^ sigBits v := by
  by_cases h0 : v = 0
  · simp [sigBits, h0]
  · simpa [sigBits, h0] using (Nat.log2_lt h0).mp (Nat.lt_succ_self _)

theorem sigBits_lt_32 {v : Nat} (h : v < 2 ^ 31) : sigBits v < 32 := by
  by_cases h0 : v = 0
  · simp [sigBits, h0]
  · have hl := (Nat.log2_lt h0).mpr h
    unfold sigBits
    rw [if_neg h0]
    omega

theorem readBitsAt_chunk (input : List Nat) (pre chunk post : List Bool)
    (hbits : bytesToBits input = pre ++ (chunk ++ post)) :
    readBitsAt input pre.length chunk.length
      = .ok (bitsToNat chunk, pre.length + chunk.length) := by
  have hlb := congrArg List.length hbits
  simp only [bytesToBits_length, List.length_append] at hlb
  unfold readBitsAt
  rw [if_pos (by omega), hbits, List.drop_left, List.take_left]


theorem compactCode_variant_lt (a : Argon2Variant) : a.compactCode < 4 := by
  cases a <;> decide

theorem compactCode_version_lt (v : Argon2Version) : v.compactCode < 2 := by
  cases v <;> decide

theorem serializeCompact_err_memory (k : KdfParameters)
    (hp : k.parallelism < 2 ^ 31) (hm : Nat.land k.memory 0x3FF ≠ 0) :
    k.serializeCompact = .error .KDFParameterExceedsRange := by
  have ha : k.algorithm.compactCode < 2 ^ 2 := by
    simpa using compactCode_variant_lt k.algorithm
  have hv : k.version.compactCode < 2 ^ 1 := by
    simpa using compactCode_version_lt k.version
  have hsp : sigBits k.parallelism < 2 ^ 5 := by
    simpa using sigBits_lt_32 hp
  simp only [KdfParameters.serializeCompact, bwrite, if_pos ha, if_pos hv, if_pos hsp,
    if_pos (lt_two_pow_sigBits k.parallelism), if_pos hm]

theorem serializeCompact_err_salt (k : KdfParameters)
    (hp : k.parallelism < 2 ^ 31) (hm : Nat.land k.memory 0x3FF = 0)
    (hm32 : k.memory < 2 ^ 32) (hi : k.iterations < 2 ^ 31)
    (hs : k.salt.length ≠ 16) :
    k.serializeCompact = .error .KDFParameterExceedsRange := by
  have ha : k.algorithm.compactCode < 2 ^ 2 := by
    simpa using compactCode_variant_lt k.algorithm
  have hv : k.version.compactCode < 2 ^ 1 := by
    simpa using compactCode_version_lt k.version
  have hsp : sigBits k.parallelism < 2 ^ 5 := by
    simpa using sigBits_lt_32 hp
  have hm10 : k.memory >>> 10 < 2 ^ 31 := by
    rw [Nat.shiftRight_eq_div_pow]
    norm_num at hm32 ⊢
    omega
  have hsm : sigBits (k.memory >>> 10) < 2 ^ 5 := by
    simpa using sigBits_lt_32 hm10
  have hsi : sigBits k.iterations < 2 ^ 5 := by
    simpa using sigBits_lt_32 hi
  simp only [KdfParameters.serializeCompact, bwrite, if_pos ha, if_pos hv, if_pos hsp,
    if_pos (lt_two_pow_sigBits k.parallelism), if_neg (not_ne_iff.mpr hm), if_pos hsm,
    if_pos (lt_two_pow_sigBits (k.memory >>> 10)), if_pos hsi,
    if_pos (lt_two_pow_sigBits k.iterations), if_pos hs]

theorem serializeCompact_ok (k : KdfParameters) (hsalt : k.salt.length = 16)
    (hm : Nat.land k.memory 0x3FF = 0) (hm32 : k.memory < 2 ^ 32)
    (hp : k.parallelism < 2 ^ 31) (hi : k.iterations < 2 ^ 31) :
    k.serializeCompact =
      .ok (bitsToBytes (kdfBits k ++
            List.replicate ((8 - (kdfBits k).length % 8) % 8) false) ++ k.salt) := by
  have ha : k.algorithm.compactCode < 2 ^ 2 := by
    simpa using compactCode_variant_lt k.algorithm
  have hv : k.version.compactCode < 2 ^ 1 := by
    simpa using compactCode_version_lt k.version
  have hsp : sigBits k.parallelism < 2 ^ 5 := by
    simpa using sigBits_lt_32 hp
  have hm10 : k.memory >>> 10 < 2 ^ 31 := by
    rw [Nat.shiftRight_eq_div_pow]
    norm_num at hm32 ⊢
    omega
  have hsm : sigBits (k.memory >>> 10) < 2 ^ 5 := by
    simpa using sigBits_lt_32 hm10
  have hsi : sigBits k.iterations < 2 ^ 5 := by
    simpa using sigBits_lt_32 hi
  simp only [KdfParameters.serializeCompact, bwrite, if_pos ha, if_pos hv, if_pos hsp,
    if_pos (lt_two_pow_sigBits k.parallelism), if_neg (not_ne_iff.mpr hm), if_pos hsm,
    if_pos (lt_two_pow_sigBits (k.memory >>> 10)), if_pos hsi,
    if_pos (lt_two_pow_sigBits k.iterations), if_neg (not_ne_iff.mpr hsalt),
    kdfBits, List.nil_append]


theorem deserializeCompact_layout (alg : Argon2Variant) (ver : Argon2Version)
    (p m it : Nat) (salt : List Nat) (hsalt : salt.length = 16)
    (hsp : sigBits p < 32) (hsm : sigBits m < 32) (hsi : sigBits it < 32) :
    KdfParameters.deserializeCompact
      (bitsToBytes
        ((natBits 2 alg.compactCode ++ natBits 1 ver.compactCode ++
          natBits 5 (sigBits p) ++ natBits (sigBits p) p ++
          natBits 5 (sigBits m) ++ natBits (sigBits m) m ++
          natBits 5 (sigBits it) ++ natBits (sigBits it) it) ++
         List.replicate
           ((8 - (natBits 2 alg.compactCode ++ natBits 1 ver.compactCode ++
              natBits 5 (sigBits p) ++ natBits (sigBits p) p ++
              natBits 5 (sigBits m) ++ natBits (sigBits m) m ++
              natBits 5 (sigBits it) ++ natBits (sigBits it) it).length % 8) % 8)
           false) ++ salt)
      = .ok (⟨alg, salt, ver, p, (m <<< 10) % 2 ^ 32, it⟩, []) := by
  have ha : alg.compactCode < 4 := compactCode_variant_lt alg
  have hv : ver.compactCode < 2 := compactCode_version_lt ver
  set n1 := natBits 2 alg.compactCode with hn1
  set n2 := natBits 1 ver.compactCode with hn2
  set n3 := natBits 5 (sigBits p) with hn3
  set n4 := natBits (sigBits p) p with hn4
  set n5 := natBits 5 (sigBits m) with hn5
  set n6 := natBits (sigBits m) m with hn6
  set n7 := natBits 5 (sigBits it) with hn7
  set n8 := natBits (sigBits it) it with hn8
  set L := n1 ++ n2 ++ n3 ++ n4 ++ n5 ++ n6 ++ n7 ++ n8 with hL
  set P := List.replicate ((8 - L.length % 8) % 8) false with hP
  set I := bitsToBytes (L ++ P) ++ salt with hI
  have halign : (L ++ P).length % 8 = 0 := by
    simp only [hL, hP, hn1, hn2, hn3, hn4, hn5, hn6, hn7, hn8, List.length_append,
      natBits_length, List.length_replicate]
    omega
  have hbits : bytesToBits I = (L ++ P) ++ bytesToBits salt := by
    rw [hI, bytesToBits_append, bytesToBits_bitsToBytes _ halign]
  have hr1 : readBitsAt I 0 2 = .ok (alg.compactCode, 2) := by
    have h := readBitsAt_chunk I [] n1
      (n2 ++ (n3 ++ (n4 ++ (n5 ++ (n6 ++ (n7 ++ (n8 ++ (P ++ bytesToBits salt))))))))
      (by simpa [hL, List.append_assoc] using hbits)
    simp only [hn1, List.length_nil, natBits_length, bitsToNat_natBits] at h
    norm_num at h
    rw [Nat.mod_eq_of_lt ha] at h
    exact h
  have hr2 : readBitsAt I 2 1 = .ok (ver.compactCode, 3) := by
    have h := readBitsAt_chunk I n1 n2
      (n3 ++ (n4 ++ (n5 ++ (n6 ++ (n7 ++ (n8 ++ (P ++ bytesToBits salt)))))))
      (by simpa [hL, List.append_assoc] using hbits)
    simp only [hn1, hn2, natBits_length, bitsToNat_natBits] at h
    norm_num at h
    rw [Nat.mod_eq_of_lt hv] at h
    exact h
  have hr3 : readBitsAt I 3 5 = .ok (sigBits p, 8) := by
    have h := readBitsAt_chunk I (n1 ++ n2) n3
      (n4 ++ (n5 ++ (n6 ++ (n7 ++ (n8 ++ (P ++ bytesToBits salt))))))
      (by simpa [hL, List.append_assoc] using hbits)
    simp only [hn1, hn2, hn3, List.length_append, natBits_length, bitsToNat_natBits] at h
    norm_num at h
    rw [Nat.mod_eq_of_lt hsp] at h
    exact h
  have hr4 : readBitsAt I 8 (sigBits p) = .ok (p, 8 + sigBits p) := by
    have h := readBitsAt_chunk I (n1 ++ n2 ++ n3) n4
      (n5 ++ (n6 ++ (n7 ++ (n8 ++ (P ++ bytesToBits salt)))))
      (by simpa [hL, List.append_assoc] using hbits)
    simp only [hn1, hn2, hn3, hn4, List.length_append, natBits_length,
      bitsToNat_natBits] at h
    norm_num at h
    rw [Nat.mod_eq_of_lt (lt_two_pow_sigBits p)] at h
    exact h
  have hr5 : readBitsAt I (8 + sigBits p) 5 = .ok (sigBits m, 8 + sigBits p + 5) := by
    have h := readBitsAt_chunk I (n1 ++ n2 ++ n3 ++ n4) n5
      (n6 ++ (n7 ++ (n8 ++ (P ++ bytesToBits salt))))
      (by simpa [hL, List.append_assoc] using hbits)
    simp only [hn1, hn2, hn3, hn4, hn5, List.length_append, natBits_length,
      bitsToNat_natBits] at h
    norm_num at h
    rw [Nat.mod_eq_of_lt hsm] at h
    exact h
  have hr6 : readBitsAt I (8 + sigBits p + 5) (sigBits m)
      = .ok (m, 8 + sigBits p + 5 + sigBits m) := by
    have h := readBitsAt_chunk I (n1 ++ n2 ++ n3 ++ n4 ++ n5) n6
      (n7 ++ (n8 ++ (P ++ bytesToBits salt)))
      (by simpa [hL, List.append_assoc] using hbits)
    simp only [hn1, hn2, hn3, hn4, hn5, hn6, List.length_append, natBits_length,
      bitsToNat_natBits] at h
    norm_num at h
    rw [Nat.mod_eq_of_lt (lt_two_pow_sigBits m)] at h
    exact h
  have hr7 : readBitsAt I (8 + sigBits p + 5 + sigBits m) 5
      = .ok (sigBits it, 8 + sigBits p + 5 + sigBits m + 5) := by
    have h := readBitsAt_chunk I (n1 ++ n2 ++ n3 ++ n4 ++ n5 ++ n6) n7
      (n8 ++ (P ++ bytesToBits salt))
      (by simpa [hL, List.append_assoc] using hbits)
    simp only [hn1, hn2, hn3, hn4, hn5, hn6, hn7, List.length_append, natBits_length,
      bitsToNat_natBits] at h
    norm_num at h
    rw [Nat.mod_eq_of_lt hsi] at h
    exact h
  have hr8 : readBitsAt I (8 + sigBits p + 5 + sigBits m + 5) (sigBits it)
      = .ok (it, 8 + sigBits p + 5 + sigBits m + 5 + sigBits it) := by
    have h := readBitsAt_chunk I (n1 ++ n2 ++ n3 ++ n4 ++ n5 ++ n6 ++ n7) n8
      (P ++ bytesToBits salt)
      (by simpa [hL, List.append_assoc] using hbits)
    simp only [hn1, hn2, hn3, hn4, hn5, hn6, hn7, hn8, List.length_append,
      natBits_length, bitsToNat_natBits] at h
    norm_num at h
    rw [Nat.mod_eq_of_lt (lt_two_pow_sigBits it)] at h
    exact h
  have hdecA : (if alg.compactCode = 0 then Except.ok Argon2Variant.D
      else if alg.compactCode = 1 then Except.ok Argon2Variant.I
      else if alg.compactCode = 2 then Except.ok Argon2Variant.ID
      else Except.error Error.UnsupportedKDF) = Except.ok alg := by
    cases alg <;> rfl
  have hdecV : (if ver.compactCode = 0 then Argon2Version.Version10
      else Argon2Version.Version13) = ver := by
    cases ver <;> rfl
  have hlenB : (bitsToBytes (L ++ P)).length
      = (8 + sigBits p + 5 + sigBits m + 5 + sigBits it + 7) / 8 := by
    rw [bitsToBytes_length]
    simp only [hL, hP, hn1, hn2, hn3, hn4, hn5, hn6, hn7, hn8, List.length_append,
      natBits_length, List.length_replicate]
    omega
  have hdrop : List.drop ((8 + sigBits p + 5 + sigBits m + 5 + sigBits it + 7) / 8) I
      = salt := by
    rw [hI, ← hlenB, List.drop_left]
  have hsaltRead : readBytesE 16 salt = .ok (salt, []) := by
    unfold readBytesE
    rw [if_pos (le_of_eq hsalt.symm), ← hsalt, List.take_length, List.drop_length]
  simp only [KdfParameters.deserializeCompact, hr1, hr2, hr3, hr4, hr5, hr6, hr7, hr8,
    hdecA, hdecV, hdrop, hsaltRead]


theorem kdf_compact_roundtrip (k : KdfParameters) (hsalt : k.salt.length = 16)
    (hm : Nat.land k.memory 0x3FF = 0) (hm32 : k.memory < 2 ^ 32)
    (hp : k.parallelism < 2 ^ 31) (hi : k.iterations < 2 ^ 31) :
    ∃ bytes, k.serializeCompact = .ok bytes ∧
      KdfParameters.deserializeCompact bytes = .ok (k, []) := by
  refine ⟨_, serializeCompact_ok k hsalt hm hm32 hp hi, ?_⟩
  have hm10 : k.memory >>> 10 < 2 ^ 31 := by
    rw [Nat.shiftRight_eq_div_pow]
    norm_num at hm32 ⊢
    omega
  have h := deserializeCompact_layout k.algorithm k.version k.parallelism
    (k.memory >>> 10) k.iterations k.salt hsalt (sigBits_lt_32 hp)
    (sigBits_lt_32 hm10) (sigBits_lt_32 hi)
  have hland : k.memory % 1024 = 0 := by
    have h2 := Nat.and_pow_two_sub_one_eq_mod k.memory 10
    norm_num at h2
    have hm' : k.memory &&& 1023 = 0 := hm
    rw [h2] at hm'
    exact hm'
  have hmem : (k.memory >>> 10 <<< 10) % 2 ^ 32 = k.memory := by
    rw [Nat.shiftRight_eq_div_pow, Nat.shiftLeft_eq]
    norm_num at hm32 ⊢
    omega
  simp only [kdfBits]
  rw [h, hmem]

theorem serializeCompact_err_width (k : KdfParameters)
    (hp : ¬ sigBits k.parallelism < 2 ^ 5) :
    k.serializeCompact = .error .IoError := by
  have ha : k.algorithm.compactCode < 2 ^ 2 := by
    simpa using compactCode_variant_lt k.algorithm
  have hv : k.version.compactCode < 2 ^ 1 := by
    simpa using compactCode_version_lt k.version
  simp only [KdfParameters.serializeCompact, bwrite, if_pos ha, if_pos hv, if_neg hp]

/-- C6 counterexample: the claim says serialization returns the
KDFParameterExceedsRange error whenever memory & 0x3FF is nonzero, but with
parallelism = 2^31 the 5-bit width field (which must hold the value 32)
fails first inside the bit writer, so such a record surfaces the bitstream
I/O error instead: the "whenever" direction of the claim is false. -/
theorem kdf_compact_error_counterexample :
    KdfParameters.serializeCompact
      { algorithm := .D, salt := List.replicate 16 0, version := .Version13,
        parallelism := 2 ^ 31, memory := 1, iterations := 1 } =
      .error .IoError ∧
    Nat.land 1 0x3FF ≠ 0 ∧
    Error.IoError ≠ Error.KDFParameterExceedsRange := by
  refine ⟨?_, by decide, by decide⟩
  have hlog : Nat.log2 (2 ^ 31) = 31 := Nat.log2_two_pow
  have hs' : sigBits (2 ^ 31) = 32 := by
    unfold sigBits
    rw [if_neg (by norm_num), hlog]
  exact serializeCompact_err_width _ (by rw [show sigBits (2 ^ 31) = 32 from hs']; decide)

/-- C6 (amended): for the compact bit-packed KDF form, provided the
bit-width fields fit (parallelism, and for the later checks memory and
iterations, below 2^31 / 2^32), serialization returns the
KDFParameterExceedsRange error when memory & 0x3FF is nonzero or the salt
length is not 16; and for every record with a 16-byte salt, memory a
multiple of 1024 below 2^32, and parallelism and iterations below 2^31,
deserializing the serialized bytes returns the original record with no
leftover input. -/
theorem kdf_compact_spec :
    (∀ k : KdfParameters, k.parallelism < 2 ^ 31 → Nat.land k.memory 0x3FF ≠ 0 →
      k.serializeCompact = .error .KDFParameterExceedsRange) ∧
    (∀ k : KdfParameters, k.parallelism < 2 ^ 31 → Nat.land k.memory 0x3FF = 0 →
      k.memory < 2 ^ 32 → k.iterations < 2 ^ 31 → k.salt.length ≠ 16 →
      k.serializeCompact = .error .KDFParameterExceedsRange) ∧
    (∀ k : KdfParameters, k.salt.length = 16 → Nat.land k.memory 0x3FF = 0 →
      k.memory < 2 ^ 32 → k.parallelism < 2 ^ 31 → k.iterations < 2 ^ 31 →
      ∃ bytes, k.serializeCompact = .ok bytes ∧
        KdfParameters.deserializeCompact bytes = .ok (k, [])) :=
  ⟨fun k hp hm => serializeCompact_err_memory k hp hm,
   fun k hp hm hm32 hi hs => serializeCompact_err_salt k hp hm hm32 hi hs,
   fun k hsalt hm hm32 hp hi => kdf_compact_roundtrip k hsalt hm hm32 hp hi⟩

/-- Witness for C6 (amended): a record with memory not a multiple of 1024
(and small parallelism) is rejected with KDFParameterExceedsRange, and the
concrete sample record round-trips bit-identically. -/
theorem kdf_compact_spec_witness :
    (KdfParameters.serializeCompact
      { algorithm := .ID, salt := [1], version := .Version10,
        parallelism := 3, memory := 5, iterations := 1 } =
      .error .KDFParameterExceedsRange) ∧
    (∃ bytes, KdfParameters.serializeCompact sampleKdf = .ok bytes ∧
      KdfParameters.deserializeCompact bytes = .ok (sampleKdf, [])) := by
  constructor
  · exact kdf_compact_spec.1 _ (by decide) (by decide)
  · exact kdf_compact_spec.2.2 sampleKdf (by decide) (by decide) (by decide)
      (by decide) (by decide)

end KeepassDb
